import Mathlib

/-!
Verification development for the schemander schema declaration and
data-coercion engine.

The engine itself (module `schemander`) is not part of the checked-in
sources here; only its test suite and an example are. Every definition
below is therefore reconstructed from the natural-language specification
of the repository (see the `Modelled from the spec:` doc comments),
with the behavior pinned by the repository test suite wherever the two
could diverge. External collaborators that the specification puts out of
scope (the cryptographic signature primitive, the phone-number and
timezone reference databases, generic JSON text encoding) are modelled
as simple pure stand-ins at their interface boundary.
-/

namespace Schemander

/-! ## Characters and fixed-width decimal digits -/

/-- The decimal digit character for `n % 10`. -/
def digitChar (n : Nat) : Char := Char.ofNat (48 + n % 10)

/-- Numeric value of a digit character. -/
def charVal (c : Char) : Nat := c.toNat - 48

/-- Two-digit zero-padded rendering. -/
def pad2 (n : Nat) : List Char := [digitChar (n / 10), digitChar n]

/-- Four-digit zero-padded rendering. -/
def pad4 (n : Nat) : List Char :=
  [digitChar (n / 1000), digitChar (n / 100), digitChar (n / 10), digitChar n]

/-- Value of two digit characters read as a decimal number. -/
def val2 (a b : Char) : Nat := 10 * charVal a + charVal b

/-- Value of four digit characters read as a decimal number. -/
def val4 (a b c d : Char) : Nat :=
  1000 * charVal a + 100 * charVal b + 10 * charVal c + charVal d

/-- Split a character list on a separator character; the separator is
dropped and the fragments between occurrences are returned in order. -/
def splitChar (sep : Char) : List Char → List (List Char)
  | [] => [[]]
  | c :: rest =>
    if c = sep then [] :: splitChar sep rest
    else
      match splitChar sep rest with
      | [] => [[c]]
      | g :: gs => (c :: g) :: gs

/-! ## Error taxonomy

Modelled from the spec: section 7 gives the decode error taxonomy
(UnexpectedField, MissingField, FormatError, ShapeMismatch) with the
originating index or field attached for list and nested decodes. -/

inductive DecodeErr where
  | unexpectedField (k : String)
  | missingField (k : String)
  | formatError (variant : String)
  | shapeMismatch
  | atIndex (i : Nat) (e : DecodeErr)
  | atField (k : String) (e : DecodeErr)
  deriving DecidableEq

/-! ## Scalar value type family: grammars and canonical forms -/

/-- Characters admitted in the local part of an email address. -/
def localChar (c : Char) : Bool :=
  c.isAlphanum || c = '.' || c = '_' || c = '%' || c = '+' || c = '-'

/-- Characters admitted in a domain label. -/
def labelChar (c : Char) : Bool := c.isAlphanum || c = '-'

/-- A domain label: non-empty run of label characters. -/
def labelOK (l : List Char) : Bool := !l.isEmpty && l.all labelChar

/-- The final (top-level) label: at least two letters. -/
def tldOK (l : List Char) : Bool := decide (2 ≤ l.length) && l.all Char.isAlpha

/-- Modelled from the spec: the domain part must have a valid label
structure with no consecutive dots; the test suite additionally pins
that a one-letter final label is rejected. -/
def domainOK (d : List Char) : Bool :=
  let labels := splitChar '.' d
  decide (2 ≤ labels.length) && labels.all labelOK &&
    (match labels.getLast? with
     | some t => tldOK t
     | none => false)

/-- Modelled from the spec: email grammar is exactly one at-sign,
non-empty local and domain parts, and a valid domain label structure. -/
def emailValid (s : String) : Bool :=
  match splitChar '@' s.toList with
  | [lp, dp] => !lp.isEmpty && lp.all localChar && domainOK dp
  | _ => false

/-- Email parse: the canonical form is the input unchanged when it is
syntactically valid. -/
def parseEmail (s : String) : Option String :=
  if emailValid s then some s else none

/-- Lowercase hexadecimal digit. -/
def hexDigit (c : Char) : Bool := c.isDigit || ('a' ≤ c && c ≤ 'f')

/-- Modelled from the spec: opaque unique identifiers serialize as their
canonical dashed lowercase hexadecimal form (8-4-4-4-12). -/
def uuidValid (s : String) : Bool :=
  match splitChar '-' s.toList with
  | [a, b, c, d, e] =>
      decide (a.length = 8) && decide (b.length = 4) && decide (c.length = 4) &&
      decide (d.length = 4) && decide (e.length = 12) &&
      a.all hexDigit && b.all hexDigit && c.all hexDigit && d.all hexDigit &&
      e.all hexDigit
  | _ => false

/-- Formatting characters stripped during phone canonicalization. -/
def phoneStripChar (c : Char) : Bool := c = ' ' || c = '(' || c = ')' || c = '-'

/-- Modelled from the spec: the E.164-style canonical phone string is a
plus sign followed by the digits. The region-specific digit-count rules
live in the external phone-number database, modelled here as a simple
overall digit-count bound. -/
def phoneCanonical (s : String) : Bool :=
  match s.toList with
  | c :: ds =>
      decide (c = '+') && !ds.isEmpty && ds.all Char.isDigit &&
      decide (8 ≤ ds.length) && decide (ds.length ≤ 15)
  | [] => false

/-- Phone parse: strip formatting punctuation, then require the
canonical form. -/
def parsePhone (s : String) : Option String :=
  let t := String.mk (s.toList.filter (fun c => !phoneStripChar c))
  if phoneCanonical t then some t else none

/-- Modelled from the spec: the timezone reference database is an
external collaborator; it is modelled as a fixed finite set of zone
names. -/
def tzdb : List String :=
  ["UTC", "America/Tijuana", "America/Los_Angeles", "America/New_York",
   "Europe/London", "Asia/Tokyo"]

/-- A timezone name is valid iff the database knows it. -/
def tzValid (s : String) : Bool := tzdb.contains s

/-! ## Dates and datetimes -/

/-- A calendar date. -/
structure DateV where
  y : Nat
  m : Nat
  d : Nat
  deriving DecidableEq

/-- Gregorian leap year rule. -/
def isLeap (y : Nat) : Bool := (y % 4 = 0 && y % 100 ≠ 0) || y % 400 = 0

/-- Days in a month of a given year. -/
def daysInMonth (y m : Nat) : Nat :=
  if m = 2 then (if isLeap y then 29 else 28)
  else if m = 4 || m = 6 || m = 9 || m = 11 then 30
  else 31

/-- A valid calendar date with a four-digit year. -/
def validDate (y m d : Nat) : Bool :=
  decide (1 ≤ y) && decide (y ≤ 9999) && decide (1 ≤ m) && decide (m ≤ 12) &&
  decide (1 ≤ d) && decide (d ≤ daysInMonth y m)

/-- A valid time of day. -/
def validTime (hh mi ss : Nat) : Bool :=
  decide (hh ≤ 23) && decide (mi ≤ 59) && decide (ss ≤ 59)

/-- Canonical `YYYY-MM-DD` characters of a date. -/
def dateChars (v : DateV) : List Char :=
  pad4 v.y ++ '-' :: (pad2 v.m ++ '-' :: pad2 v.d)

/-- Canonical date format. -/
def formatDate (v : DateV) : String := String.mk (dateChars v)

/-- Build a date after validation. -/
def mkDate? (y m d : Nat) : Option DateV :=
  if validDate y m d then some ⟨y, m, d⟩ else none

/-- Parse the three dash-separated components of an ISO date. -/
def parseYMD (dp : List Char) : Option (Nat × Nat × Nat) :=
  match splitChar '-' dp with
  | [a, b, c] =>
      match a, b, c with
      | [y1, y2, y3, y4], [m1, m2], [d1, d2] =>
          if [y1, y2, y3, y4, m1, m2, d1, d2].all Char.isDigit then
            some (val4 y1 y2 y3 y4, val2 m1 m2, val2 d1 d2)
          else none
      | _, _, _ => none
  | _ => none

/-- Modelled from the spec: a date parses from the ISO `YYYY-MM-DD`
string or the compact `YYYYMMDD` digit string; invalid calendar dates
fail. -/
def parseDate (s : String) : Option DateV :=
  match parseYMD s.toList with
  | some (y, mo, dd) => mkDate? y mo dd
  | none =>
      match s.toList with
      | [y1, y2, y3, y4, m1, m2, d1, d2] =>
          if [y1, y2, y3, y4, m1, m2, d1, d2].all Char.isDigit then
            mkDate? (val4 y1 y2 y3 y4) (val2 m1 m2) (val2 d1 d2)
          else none
      | _ => none

/-- A timezone-aware instant, stored in its canonical UTC civil form. -/
structure DateTimeV where
  y : Nat
  m : Nat
  d : Nat
  hh : Nat
  mi : Nat
  ss : Nat
  deriving DecidableEq

/-- The calendar day after a given day. -/
def nextDay (y m d : Nat) : Nat × Nat × Nat :=
  if d < daysInMonth y m then (y, m, d + 1)
  else if m < 12 then (y, m + 1, 1)
  else (y + 1, 1, 1)

/-- The calendar day before a given day. -/
def prevDay (y m d : Nat) : Nat × Nat × Nat :=
  if 1 < d then (y, m, d - 1)
  else if 1 < m then (y, m - 1, daysInMonth y (m - 1))
  else (y - 1, 12, 31)

/-- Modelled from the spec: all input offsets are converted to UTC on
parse. The UTC instant is the local civil time minus the offset; the
day may shift by one. -/
def applyOffset (y m d hh mi : Nat) (plus : Bool) (offH offM : Nat) :
    Nat × Nat × Nat × Nat × Nat :=
  let lc := hh * 60 + mi
  let off := offH * 60 + offM
  if plus then
    if off ≤ lc then (y, m, d, (lc - off) / 60, (lc - off) % 60)
    else
      match prevDay y m d with
      | (y', m', d') => (y', m', d', (lc + 1440 - off) / 60, (lc + 1440 - off) % 60)
  else
    if lc + off < 1440 then (y, m, d, (lc + off) / 60, (lc + off) % 60)
    else
      match nextDay y m d with
      | (y', m', d') => (y', m', d', (lc + off - 1440) / 60, (lc + off - 1440) % 60)

/-- Parse `HH:MM:SS` characters. -/
def parseHMS (t : List Char) : Option (Nat × Nat × Nat) :=
  match splitChar ':' t with
  | [a, b, c] =>
      match a, b, c with
      | [h1, h2], [i1, i2], [s1, s2] =>
          if [h1, h2, i1, i2, s1, s2].all Char.isDigit then
            some (val2 h1 h2, val2 i1 i2, val2 s1 s2)
          else none
      | _, _, _ => none
  | _ => none

/-- Parse `hh:mm` offset characters. -/
def parseOffPair (t : List Char) : Option (Nat × Nat) :=
  match splitChar ':' t with
  | [a, b] =>
      match a, b with
      | [h1, h2], [m1, m2] =>
          if [h1, h2, m1, m2].all Char.isDigit then
            some (val2 h1 h2, val2 m1 m2)
          else none
      | _, _ => none
  | _ => none

/-- Split the time-of-day part from its mandatory offset; a missing
offset fails the parse. -/
def parseTimeOffset (tp : List Char) : Option (Nat × Nat × Nat × Bool × Nat × Nat) :=
  match splitChar '+' tp with
  | [t, off] => do
      let (hh, mi, ss) ← parseHMS t
      let (oh, om) ← parseOffPair off
      pure (hh, mi, ss, true, oh, om)
  | [t0] =>
      match splitChar '-' t0 with
      | [t, off] => do
          let (hh, mi, ss) ← parseHMS t
          let (oh, om) ← parseOffPair off
          pure (hh, mi, ss, false, oh, om)
      | _ => none
  | _ => none

/-- Modelled from the spec: an ISO 8601 datetime string with an explicit
offset parses to the canonical UTC instant; a missing offset or an
unparsable string fails. -/
def parseDateTime (s : String) : Option DateTimeV :=
  match splitChar 'T' s.toList with
  | [dp, tp] =>
      match parseYMD dp with
      | some (y, mo, dd) =>
          if validDate y mo dd then
            match parseTimeOffset tp with
            | some (hh, mi, ss, plus, oh, om) =>
                if validTime hh mi ss && decide (oh ≤ 23) && decide (om ≤ 59) then
                  match applyOffset y mo dd hh mi plus oh om with
                  | (y', m', d', hh', mi') =>
                      if validDate y' m' d' then
                        some ⟨y', m', d', hh', mi', ss⟩
                      else none
                else none
            | none => none
          else none
      | none => none
  | _ => none

/-- Body of the canonical datetime rendering, without the offset. -/
def dtChars (v : DateTimeV) : List Char :=
  pad4 v.y ++ '-' :: (pad2 v.m ++ '-' :: (pad2 v.d ++ 'T' ::
    (pad2 v.hh ++ ':' :: (pad2 v.mi ++ ':' :: pad2 v.ss))))

/-- The digits of the normalized UTC offset. -/
def utcOff : List Char := ['0', '0', ':', '0', '0']

/-- The normalized UTC offset rendering. -/
def utcSuffix : List Char := '+' :: utcOff

/-- Canonical datetime format: ISO 8601 with the normalized UTC offset. -/
def formatDateTime (v : DateTimeV) : String := String.mk (dtChars v ++ utcSuffix)

/-! ## Signed tokens

Modelled from the spec: a compact signed token is three dot-separated
segments; verification requires the declared algorithm to be in the
configured set and the signature segment to verify under the configured
key, and fails closed otherwise. The cryptographic primitive and the
segment text codecs are external collaborators, modelled as simple pure
functions. -/

/-- Token claim set: ordered mapping from claim name to decoded value. -/
abbrev Claims := List (String × Nat)

/-- Concrete token configuration: secret material and the ordered set of
accepted signing algorithms. -/
structure JWTConfig where
  key : String
  algorithms : List String
  deriving DecidableEq

/-- Dot-escaping used by the modelled signature primitive so that a
signature never introduces extra segments. -/
def escapeDot (c : Char) : Char := if c = '.' then '|' else c

/-- Modelled from the spec: the signature primitive is an external pure
keyed computation; it is modelled as a deterministic keyed tag over the
signing input. -/
def hmacSign (key : String) (msg : List Char) : List Char :=
  's' :: 'i' :: 'g' :: (key.toList ++ '|' :: msg).map escapeDot

/-- Decimal value of a digit character run. -/
def natOfDigits (ds : List Char) : Nat :=
  ds.foldl (fun a c => 10 * a + charVal c) 0

/-- One `name:value` claim of the modelled payload codec. -/
def parseClaim (g : List Char) : Option (String × Nat) :=
  match splitChar ':' g with
  | [k, v] =>
      if !k.isEmpty && !v.isEmpty && v.all Char.isDigit then
        some (String.mk k, natOfDigits v)
      else none
  | _ => none

/-- Traverse a list with a fallible function. -/
def mapOption (f : α → Option β) : List α → Option (List β)
  | [] => some []
  | x :: xs => do
      let y ← f x
      let ys ← mapOption f xs
      pure (y :: ys)

/-- Modelled from the spec: the payload segment decodes to the embedded
claim set through the external text codec, modelled as a comma-separated
list of `name:value` claims. -/
def decodePayload (p : List Char) : Option Claims :=
  if p.isEmpty then some [] else mapOption parseClaim (splitChar ',' p)

/-- Modelled from the spec: the header segment declares the signing
algorithm through the external text codec, modelled as the algorithm
name itself; an empty header is malformed. -/
def headerAlg (h : List Char) : Option String :=
  if h.isEmpty then none else some (String.mk h)

/-- Modelled from the spec: token verification. Split into exactly three
segments, require the declared algorithm to be configured, verify the
signature over the first two segments, then extract the claim set. Every
failure is reported as the same format error, failing closed. -/
def jwtParse (cfg : JWTConfig) (token : String) : Except DecodeErr Claims :=
  match splitChar '.' token.toList with
  | [h, p, s] =>
      match headerAlg h with
      | none => .error (.formatError "jwt")
      | some alg =>
          if alg ∈ cfg.algorithms then
            if s = hmacSign cfg.key (h ++ '.' :: p) then
              match decodePayload p with
              | some cs => .ok cs
              | none => .error (.formatError "jwt")
            else .error (.formatError "jwt")
          else .error (.formatError "jwt")
  | _ => .error (.formatError "jwt")

/-! ## Data model

Modelled from the spec, section 3: field specs with a shape tagged
variant (scalar, nested schema, list-of), an optional flag whose
unspecified default is none, and records as ordered mappings from field
name to value. -/

/-- Identifiers of the scalar value types that plug into the coercion
pipeline. The token variant carries its concrete configuration. -/
inductive ScalarTy where
  | str
  | int
  | uuid
  | email
  | phone
  | date
  | datetime
  | tz
  | jwt (cfg : JWTConfig)
  deriving DecidableEq

/-- A scalar value: one canonical underlying value; the exact input
string is discarded on parse. The token value keeps its canonical
compact string together with the verified claim set. -/
inductive ScalarVal where
  | sUuid (s : String)
  | sEmail (s : String)
  | sPhone (s : String)
  | sTz (s : String)
  | sDate (v : DateV)
  | sDateTime (v : DateTimeV)
  | sJwt (token : String) (claims : Claims)
  deriving DecidableEq

/-- Runtime values: raw input primitives and mappings, plus decoded
scalars and records. -/
inductive Val where
  | vStr (s : String)
  | vInt (n : Int)
  | vNull
  | vScalar (sv : ScalarVal)
  | vList (xs : List Val)
  | vDict (m : List (String × Val))
  | vRec (name : String) (fs : List (String × Val))

/-- Whether a value is the explicit null marker. -/
def Val.isNull : Val → Bool
  | .vNull => true
  | _ => false

mutual

/-- The coercion strategy of a declared field: scalar, nested schema, or
list-of. -/
inductive Shape where
  | scalar (t : ScalarTy)
  | nested (name : String) (flds : Fields)
  | listOf (sh : Shape)

/-- The ordered immutable field-spec sequence of one schema: field name,
shape, and optional flag (the declared default being none). -/
inductive Fields where
  | nil
  | cons (name : String) (sh : Shape) (optional : Bool) (rest : Fields)

end

/-- The declared field names, in declaration order. -/
def fieldNames : Fields → List String
  | .nil => []
  | .cons n _ _ rest => n :: fieldNames rest

/-- The field specs as a plain list of triples. -/
def Fields.toList : Fields → List (String × Shape × Bool)
  | .nil => []
  | .cons n sh opt rest => (n, sh, opt) :: Fields.toList rest

/-- Keys of an ordered mapping. -/
def keysOf (m : List (String × Val)) : List String := m.map Prod.fst

/-- First value bound to a key in an ordered mapping. -/
def lookupKey : List (String × Val) → String → Option Val
  | [], _ => none
  | (k, v) :: rest, key => if k = key then some v else lookupKey rest key

/-- All strings distinct. -/
def distinct : List String → Bool
  | [] => true
  | x :: xs => !decide (x ∈ xs) && distinct xs

/-- First input key that is not a declared field name, if any. -/
def findExtra (m : List (String × Val)) (names : List String) : Option String :=
  match m with
  | [] => none
  | (k, _) :: rest => if k ∈ names then findExtra rest names else some k

/-- Decode a raw value against one scalar type: accept an already-typed
scalar of the matching variant as-is, otherwise parse the raw form. -/
def scalarDecode (t : ScalarTy) (v : Val) : Except DecodeErr Val :=
  match t, v with
  | .str, .vStr s => .ok (.vStr s)
  | .int, .vInt n => .ok (.vInt n)
  | .uuid, .vScalar (.sUuid u) => .ok (.vScalar (.sUuid u))
  | .uuid, .vStr s =>
      if uuidValid s then .ok (.vScalar (.sUuid s)) else .error (.formatError "uuid")
  | .email, .vScalar (.sEmail e) => .ok (.vScalar (.sEmail e))
  | .email, .vStr s =>
      match parseEmail s with
      | some e => .ok (.vScalar (.sEmail e))
      | none => .error (.formatError "email")
  | .phone, .vScalar (.sPhone p) => .ok (.vScalar (.sPhone p))
  | .phone, .vStr s =>
      match parsePhone s with
      | some p => .ok (.vScalar (.sPhone p))
      | none => .error (.formatError "phone")
  | .tz, .vScalar (.sTz z) => .ok (.vScalar (.sTz z))
  | .tz, .vStr s =>
      if tzValid s then .ok (.vScalar (.sTz s)) else .error (.formatError "tz")
  | .date, .vScalar (.sDate dv) => .ok (.vScalar (.sDate dv))
  | .date, .vStr s =>
      match parseDate s with
      | some dv => .ok (.vScalar (.sDate dv))
      | none => .error (.formatError "date")
  | .datetime, .vScalar (.sDateTime w) => .ok (.vScalar (.sDateTime w))
  | .datetime, .vStr s =>
      match parseDateTime s with
      | some w => .ok (.vScalar (.sDateTime w))
      | none => .error (.formatError "datetime")
  | .jwt _, .vScalar (.sJwt tok cs) => .ok (.vScalar (.sJwt tok cs))
  | .jwt cfg, .vStr s =>
      match jwtParse cfg s with
      | .ok cs => .ok (.vScalar (.sJwt s cs))
      | .error e => .error e
  | _, _ => .error .shapeMismatch

mutual

/-- Modelled from the spec, section 4.3: recursive decode over the
shape. A value that is already of the right in-memory type is accepted
as-is; a mapping decodes recursively against the nested schema after
its key set is checked against the declared field names; lists decode
element-wise with the failing index attached. -/
def decodeShape : Shape → Val → Except DecodeErr Val
  | .scalar t, v => scalarDecode t v
  | .nested name _, .vRec n fs =>
      if n = name then .ok (.vRec n fs) else .error .shapeMismatch
  | .nested name flds, .vDict m =>
      (match findExtra m (fieldNames flds) with
       | some k => .error (.unexpectedField k)
       | none => (decodeFields flds m).map (.vRec name ·))
  | .nested _ _, _ => .error .shapeMismatch
  | .listOf sh, .vList xs => (decodeList sh 0 xs).map .vList
  | .listOf _, _ => .error .shapeMismatch

/-- Element-wise list decode, attaching the index of the first failing
element. -/
def decodeList (sh : Shape) : Nat → List Val → Except DecodeErr (List Val)
  | _, [] => .ok []
  | i, x :: xs =>
      match decodeShape sh x with
      | .error e => .error (.atIndex i e)
      | .ok y => (decodeList sh (i + 1) xs).map (y :: ·)

/-- Decode every declared field against the input mapping: a required
field must be present; an optional field that is absent or explicitly
null resolves to its declared default (none); field errors carry the
field name. -/
def decodeFields : Fields → List (String × Val) → Except DecodeErr (List (String × Val))
  | .nil, _ => .ok []
  | .cons fname sh opt rest, m =>
      match lookupKey m fname with
      | none =>
          if opt then (decodeFields rest m).map ((fname, .vNull) :: ·)
          else .error (.missingField fname)
      | some v =>
          if v.isNull && opt then (decodeFields rest m).map ((fname, .vNull) :: ·)
          else
            match decodeShape sh v with
            | .error e => .error (.atField fname e)
            | .ok w => (decodeFields rest m).map ((fname, w) :: ·)

end

/-- Modelled from the spec, section 4.3: top-level schema decode. First
reject any input key that is not a declared field name, then decode
every declared field in field-spec order, failing fast. -/
def decodeSchema (name : String) (flds : Fields) (m : List (String × Val)) :
    Except DecodeErr Val :=
  match findExtra m (fieldNames flds) with
  | some k => .error (.unexpectedField k)
  | none => (decodeFields flds m).map (.vRec name ·)

/-- The decode entry point of one schema, `from_dict`. -/
def fromDict (name : String) (flds : Fields) (m : List (String × Val)) :
    Except DecodeErr Val :=
  decodeSchema name flds m

/-- Canonical string of a scalar value; total, and always the canonical
representation regardless of input spelling. -/
def scalarFormat : ScalarVal → String
  | .sUuid s => s
  | .sEmail s => s
  | .sPhone s => s
  | .sTz s => s
  | .sDate v => formatDate v
  | .sDateTime v => formatDateTime v
  | .sJwt tok _ => tok

mutual

/-- Modelled from the spec, section 4.3: recursive encode, the
structural inverse of decode. Scalars format to their canonical string,
records to mappings, lists element-wise. -/
def encodeVal : Val → Val
  | .vStr s => .vStr s
  | .vInt n => .vInt n
  | .vNull => .vNull
  | .vScalar sv => .vStr (scalarFormat sv)
  | .vList xs => .vList (encodeValList xs)
  | .vDict m => .vDict (encodeEntries m)
  | .vRec _ fs => .vDict (encodeEntries fs)

/-- Element-wise encode of a list. -/
def encodeValList : List Val → List Val
  | [] => []
  | x :: xs => encodeVal x :: encodeValList xs

/-- Entry-wise encode of record fields. -/
def encodeEntries : List (String × Val) → List (String × Val)
  | [] => []
  | (k, v) :: rest => (k, encodeVal v) :: encodeEntries rest

end

/-- Full encode (`to_dict`) of the fields of a record: every declared
field present, defaulted fields as an explicit null. -/
def toDictFields (fs : List (String × Val)) : List (String × Val) :=
  encodeEntries fs

/-- Minimal encode (`to_minimal_dict`) of the fields of a record: fields
whose current value equals their declared default (none) are omitted
entirely. -/
def toMinimalFields (fs : List (String × Val)) : List (String × Val) :=
  (encodeEntries fs).filter (fun p => !p.2.isNull)

/-- The explicit null entries of the defaulted fields of a record. -/
def defaultedNulls (fs : List (String × Val)) : List (String × Val) :=
  (fs.filter (fun p => p.2.isNull)).map (fun p => (p.1, Val.vNull))

/-- Full encode of a record, `to_dict`. -/
def toDict : Val → Option Val
  | .vRec _ fs => some (.vDict (toDictFields fs))
  | _ => none

/-! ## Well-formedness of records against their schema -/

/-- A stored scalar value is well formed for its scalar type when its
canonical underlying value satisfies the variant grammar. -/
def wfScalar (t : ScalarTy) (v : Val) : Bool :=
  match t, v with
  | .str, .vStr _ => true
  | .int, .vInt _ => true
  | .uuid, .vScalar (.sUuid u) => uuidValid u
  | .email, .vScalar (.sEmail e) => emailValid e
  | .phone, .vScalar (.sPhone p) => phoneCanonical p
  | .tz, .vScalar (.sTz z) => tzValid z
  | .date, .vScalar (.sDate dv) => validDate dv.y dv.m dv.d
  | .datetime, .vScalar (.sDateTime w) =>
      validDate w.y w.m w.d && validTime w.hh w.mi w.ss
  | .jwt cfg, .vScalar (.sJwt tok cs) =>
      match jwtParse cfg tok with
      | .ok cs' => decide (cs' = cs)
      | .error _ => false
  | _, _ => false

mutual

/-- A runtime value matches a declared shape. -/
def wfShape : Shape → Val → Bool
  | .scalar t, v => wfScalar t v
  | .nested name flds, .vRec n fs => decide (n = name) && wfFields flds fs
  | .nested _ _, _ => false
  | .listOf sh, .vList xs => wfList sh xs
  | .listOf _, _ => false

/-- Every element of a list matches the element shape. -/
def wfList (sh : Shape) : List Val → Bool
  | [] => true
  | x :: xs => wfShape sh x && wfList sh xs

/-- Record fields align one-to-one, in order, with the field specs; a
null value is only allowed for an optional field. -/
def wfFields : Fields → List (String × Val) → Bool
  | .nil, [] => true
  | .nil, _ :: _ => false
  | .cons _ _ _ _, [] => false
  | .cons fname sh opt rest, (k, v) :: fs =>
      decide (k = fname) && (if v.isNull then opt else wfShape sh v) && wfFields rest fs

end

mutual

/-- A shape only mentions well-declared schemas. -/
def shapeOK : Shape → Bool
  | .scalar _ => true
  | .nested _ flds => distinct (fieldNames flds) && fieldsOK flds
  | .listOf sh => shapeOK sh

/-- Every field shape of a field-spec sequence is well declared. -/
def fieldsOK : Fields → Bool
  | .nil => true
  | .cons _ sh _ rest => shapeOK sh && fieldsOK rest

end

/-- A well-declared schema: distinct field names and well-declared field
shapes. -/
def schemaOK (flds : Fields) : Bool :=
  distinct (fieldNames flds) && fieldsOK flds

/-! ## Direct record construction

Modelled from the spec, invariant (a) of section 3 together with the
test suite: constructing a record directly with a keyword argument whose
name is not a declared field fails with a value error. -/

/-- Initialize the declared fields from keyword arguments; an absent
field gets the declared default. -/
def initFields : Fields → List (String × Val) → List (String × Val)
  | .nil, _ => []
  | .cons n _ _ rest, kwargs =>
      (n, (lookupKey kwargs n).getD .vNull) :: initFields rest kwargs

/-- Direct construction of a record from keyword arguments. -/
def mkRecord (name : String) (flds : Fields) (kwargs : List (String × Val)) :
    Except DecodeErr Val :=
  match findExtra kwargs (fieldNames flds) with
  | some k => .error (.unexpectedField k)
  | none => .ok (.vRec name (initFields flds kwargs))

/-! ## Field registry construction

Modelled from the spec, section 4.2: at schema-declaration time the
declared field annotations are classified into shapes; a fixed-arity
tuple, a union of two or more non-null concrete types, or any other
unsupported annotation is a load-time declaration error. -/

/-- Declared type annotations, as they appear on schema fields. -/
inductive Ann where
  | aScalar (t : ScalarTy)
  | aSchema (name : String) (flds : Fields)
  | aList (a : Ann)
  | aOptional (a : Ann)
  | aTuple (args : List Ann)
  | aUnion (a b : Ann)
  | aOther (tyName : String)

/-- Declaration-time failure: a field shape with no decode strategy. -/
inductive DeclarationError where
  | noDecodeStrategy (field : String)
  deriving DecidableEq

/-- A fixed-arity tuple annotation or a union of two or more non-null
concrete types: the unsupported shapes named by the spec. -/
def unsupportedAnn : Ann → Bool
  | .aTuple _ => true
  | .aUnion _ _ => true
  | _ => false

/-- The shapes admitted directly under a list or optional wrapper:
scalar types and nested schemas. -/
def classifyCore : Ann → Option Shape
  | .aScalar t => some (.scalar t)
  | .aSchema n f => some (.nested n f)
  | _ => none

/-- Classify one field annotation into its field spec, or fail at
declaration time. -/
def classify (fname : String) : Ann → Except DeclarationError (Shape × Bool)
  | .aScalar t => .ok (.scalar t, false)
  | .aSchema n f => .ok (.nested n f, false)
  | .aList a =>
      match classifyCore a with
      | some sh => .ok (.listOf sh, false)
      | none => .error (.noDecodeStrategy fname)
  | .aOptional (.aList b) =>
      match classifyCore b with
      | some sh => .ok (.listOf sh, true)
      | none => .error (.noDecodeStrategy fname)
  | .aOptional a =>
      match classifyCore a with
      | some sh => .ok (sh, true)
      | none => .error (.noDecodeStrategy fname)
  | .aTuple _ => .error (.noDecodeStrategy fname)
  | .aUnion _ _ => .error (.noDecodeStrategy fname)
  | .aOther _ => .error (.noDecodeStrategy fname)

/-- Build the immutable field-spec sequence of a schema declaration,
failing at class-declaration time on any unsupported field shape. -/
def declareSchema : List (String × Ann) → Except DeclarationError Fields
  | [] => .ok .nil
  | (n, a) :: rest =>
      match classify n a with
      | .error e => .error e
      | .ok (sh, opt) =>
          match declareSchema rest with
          | .error e => .error e
          | .ok fs => .ok (.cons n sh opt fs)

/-! ## Polymorphic enforcement

Modelled from the spec, section 4.5, with the dispatch order pinned by
the repository test suite: the allow-none short-circuit comes first,
then the schema-capable check (a type error), then the missing-value
check (a value error), then accept-as-is, decode-if-mapping, or a final
type error. -/

/-- The expected type handed to the enforcement helper. -/
inductive PyType where
  | schemaTy (name : String) (flds : Fields)
  | noneTy
  | otherTy (tyName : String)

/-- Enforcement failure: the caller type-contract violation is distinct
from any value-level decode failure. -/
inductive EnforceErr where
  | typeError
  | missingValue
  | decodeFailed (e : DecodeErr)
  deriving DecidableEq

/-- Whether the expected type is schema-capable. -/
def isSchemaCapable : PyType → Bool
  | .schemaTy _ _ => true
  | _ => false

/-- The polymorphic enforcement helper, `Schema.enforce`. -/
def enforce (t : PyType) (v : Val) (allowNone : Bool) : Except EnforceErr (Option Val) :=
  if v.isNull && allowNone then .ok none
  else
    match t with
    | .schemaTy name flds =>
        match v with
        | .vNull => .error .missingValue
        | .vRec n fs =>
            if n = name then .ok (some (.vRec n fs)) else .error .typeError
        | .vDict m =>
            match decodeSchema name flds m with
            | .ok r => .ok (some r)
            | .error e => .error (.decodeFailed e)
        | _ => .error .typeError
    | _ => .error .typeError

/-! ## Sample schemas mirroring the repository test suite -/

/-- The token configuration of the JWTDummy test type. -/
def sampleTokenCfg : JWTConfig := ⟨"secret", ["HS256"]⟩

/-- A compact token signed under the modelled signature primitive. -/
def sampleToken : String := "HS256.iat:1516239022.sigsecret|HS256|iat:1516239022"

/-- The single-field schema DummySchemaOne of the tests. -/
def nestedFlds : Fields := .cons "field" (.scalar .str) false .nil

/-- A schema exercising every field shape, in the style of DummySchema. -/
def sampleFlds : Fields :=
  .cons "field_one" (.scalar .str) false
  (.cons "field_two" (.scalar .int) false
  (.cons "field_tre" (.scalar .uuid) false
  (.cons "field_fou" (.scalar .date) false
  (.cons "field_fiv" (.scalar .str) true
  (.cons "field_six" (.listOf (.nested "DummySchemaOne" nestedFlds)) false
  (.cons "field_sev" (.scalar .datetime) false
  (.cons "field_eig" (.scalar .email) false
  (.cons "field_nin" (.scalar .phone) false
  (.cons "field_ten" (.scalar .tz) false
  (.cons "field_ele" (.scalar (.jwt sampleTokenCfg)) false .nil))))))))))

/-- A record of the sample schema. -/
def sampleRec : List (String × Val) :=
  [("field_one", .vStr "One"), ("field_two", .vInt 2),
   ("field_tre", .vScalar (.sUuid "eb02a39e-4fa4-422c-954b-5446fd71a5e5")),
   ("field_fou", .vScalar (.sDate ⟨1990, 1, 1⟩)),
   ("field_fiv", .vNull),
   ("field_six", .vList [.vRec "DummySchemaOne" [("field", .vStr "value")]]),
   ("field_sev", .vScalar (.sDateTime ⟨1990, 1, 1, 2, 0, 0⟩)),
   ("field_eig", .vScalar (.sEmail "example@example.com")),
   ("field_nin", .vScalar (.sPhone "+16198675309")),
   ("field_ten", .vScalar (.sTz "America/Tijuana")),
   ("field_ele", .vScalar (.sJwt sampleToken [("iat", 1516239022)]))]

/-- The list-of-schemas schema DummySchemaTwo of the tests. -/
def listFlds : Fields :=
  .cons "field" (.listOf (.nested "DummySchemaOne" nestedFlds)) false .nil

/-- The element list of the non-homogeneous list decode test: the second
element mapping carries the undeclared key. -/
def badElems : List Val :=
  [.vDict [("field", .vStr "value")],
   .vDict [("field", .vStr "value"), ("extra", .vStr "foo")]]

/-- The schema of the optional-field test: one required and one
declared-optional string field. -/
def optFlds : Fields :=
  .cons "field" (.scalar .str) false (.cons "optional" (.scalar .str) true .nil)

/-! ## Digit character facts -/

theorem digit_char_facts : ∀ k, k < 10 →
    ((Char.ofNat (48 + k)).toNat = 48 + k ∧ (Char.ofNat (48 + k)).isDigit = true) := by
  decide

theorem digitChar_toNat (n : Nat) : (digitChar n).toNat = 48 + n % 10 :=
  (digit_char_facts (n % 10) (Nat.mod_lt _ (by omega))).1

theorem digitChar_isDigit (n : Nat) : (digitChar n).isDigit = true :=
  (digit_char_facts (n % 10) (Nat.mod_lt _ (by omega))).2

theorem charVal_digitChar (n : Nat) : charVal (digitChar n) = n % 10 := by
  simp [charVal, digitChar_toNat]

theorem digitChar_ne (n : Nat) (c : Char) (hc : c.toNat < 48 ∨ 57 < c.toNat) :
    digitChar n ≠ c := by
  intro e
  have h1 := digitChar_toNat n
  rw [e] at h1
  have h2 : n % 10 < 10 := Nat.mod_lt _ (by omega)
  omega

theorem isDigit_toNat (c : Char) (h : c.isDigit = true) : 48 ≤ c.toNat ∧ c.toNat ≤ 57 := by
  simp [Char.isDigit] at h
  exact h

theorem isDigit_ne (c d : Char) (h : c.isDigit = true) (hd : d.toNat < 48 ∨ 57 < d.toNat) :
    c ≠ d := by
  intro e
  have hb := isDigit_toNat c h
  rw [e] at hb
  omega

theorem val2_pad (n : Nat) (h : n < 100) : val2 (digitChar (n / 10)) (digitChar n) = n := by
  simp [val2, charVal_digitChar]
  omega

theorem val4_pad (n : Nat) (h : n < 10000) :
    val4 (digitChar (n / 1000)) (digitChar (n / 100)) (digitChar (n / 10)) (digitChar n) = n := by
  simp [val4, charVal_digitChar]
  omega

theorem mem_pad2 (n : Nat) (c : Char) (h : c ∈ pad2 n) : ∃ k, c = digitChar k := by
  simp [pad2] at h
  rcases h with h | h <;> exact ⟨_, h⟩

theorem mem_pad4 (n : Nat) (c : Char) (h : c ∈ pad4 n) : ∃ k, c = digitChar k := by
  simp [pad4] at h
  rcases h with h | h | h | h <;> exact ⟨_, h⟩

theorem pad2_ne (n : Nat) (c : Char) (hc : c.toNat < 48 ∨ 57 < c.toNat) :
    ∀ x ∈ pad2 n, x ≠ c := by
  intro x hx
  obtain ⟨k, rfl⟩ := mem_pad2 n x hx
  exact digitChar_ne k c hc

theorem pad4_ne (n : Nat) (c : Char) (hc : c.toNat < 48 ∨ 57 < c.toNat) :
    ∀ x ∈ pad4 n, x ≠ c := by
  intro x hx
  obtain ⟨k, rfl⟩ := mem_pad4 n x hx
  exact digitChar_ne k c hc

/-! ## splitChar facts -/

theorem splitChar_ne_nil (sep : Char) (l : List Char) : splitChar sep l ≠ [] := by
  induction l with
  | nil => simp [splitChar]
  | cons c rest ih =>
    simp only [splitChar]
    split
    · simp
    · cases h : splitChar sep rest <;> simp

theorem splitChar_cons_self (sep : Char) (r : List Char) :
    splitChar sep (sep :: r) = [] :: splitChar sep r := by
  simp [splitChar]

theorem splitChar_no_sep (sep : Char) (l : List Char) (h : ∀ c ∈ l, c ≠ sep) :
    splitChar sep l = [l] := by
  induction l with
  | nil => rfl
  | cons c rest ih =>
    have hc : c ≠ sep := h c (by simp)
    have hr := ih (fun x hx => h x (by simp [hx]))
    simp [splitChar, hc, hr]

theorem splitChar_append (sep : Char) (a t : List Char) (h : ∀ c ∈ a, c ≠ sep) :
    splitChar sep (a ++ sep :: t) = a :: splitChar sep t := by
  induction a with
  | nil => simp [splitChar_cons_self]
  | cons c rest ih =>
    have hc : c ≠ sep := h c (by simp)
    have hr := ih (fun x hx => h x (by simp [hx]))
    simp [splitChar, hc, hr]

/-! ## Scalar canonicalization idempotence -/

theorem mk_toList (s : String) : String.mk s.toList = s := by
  cases s
  rfl

theorem parseEmail_canonical (e : String) (h : emailValid e = true) : parseEmail e = some e := by
  simp [parseEmail, h]

theorem digit_not_strip (c : Char) (h : c.isDigit = true) : phoneStripChar c = false := by
  have h1 : c ≠ ' ' := isDigit_ne c ' ' h (by decide)
  have h2 : c ≠ '(' := isDigit_ne c '(' h (by decide)
  have h3 : c ≠ ')' := isDigit_ne c ')' h (by decide)
  have h4 : c ≠ '-' := isDigit_ne c '-' h (by decide)
  simp [phoneStripChar, h1, h2, h3, h4]

theorem parsePhone_canonical (p : String) (h : phoneCanonical p = true) :
    parsePhone p = some p := by
  have h0 := h
  obtain ⟨pl⟩ := p
  cases pl with
  | nil => simp [phoneCanonical, String.toList] at h
  | cons c ds =>
    simp only [phoneCanonical, String.toList, Bool.and_eq_true, decide_eq_true_eq] at h
    obtain ⟨⟨⟨⟨hplus, hne⟩, hdig⟩, hlen1⟩, hlen2⟩ := h
    have hfilter : (c :: ds).filter (fun x => !phoneStripChar x) = c :: ds := by
      rw [List.filter_eq_self]
      intro a ha
      rcases List.mem_cons.mp ha with rfl | ha
      · subst hplus
        decide
      · simp [digit_not_strip a (List.all_eq_true.mp hdig a ha)]
    simp [parsePhone, String.toList, hfilter, h0]

/-! ## Date and datetime round trips -/

theorem formatDate_toList (v : DateV) : (formatDate v).toList = dateChars v := rfl

theorem formatDateTime_toList (v : DateTimeV) :
    (formatDateTime v).toList = dtChars v ++ utcSuffix := rfl

theorem daysInMonth_le (y m : Nat) : daysInMonth y m ≤ 31 := by
  unfold daysInMonth
  split_ifs <;> omega

theorem validDate_bounds (y m d : Nat) (h : validDate y m d = true) :
    1 ≤ y ∧ y ≤ 9999 ∧ 1 ≤ m ∧ m ≤ 12 ∧ 1 ≤ d ∧ d ≤ 31 := by
  have hle := daysInMonth_le y m
  simp only [validDate, Bool.and_eq_true, decide_eq_true_eq] at h
  omega

theorem validTime_bounds (hh mi ss : Nat) (h : validTime hh mi ss = true) :
    hh ≤ 23 ∧ mi ≤ 59 ∧ ss ≤ 59 := by
  simp only [validTime, Bool.and_eq_true, decide_eq_true_eq] at h
  omega

theorem splitChar_dateChars (v : DateV) :
    splitChar '-' (dateChars v) = [pad4 v.y, pad2 v.m, pad2 v.d] := by
  unfold dateChars
  rw [splitChar_append '-' (pad4 v.y) _ (pad4_ne _ '-' (by decide)),
      splitChar_append '-' (pad2 v.m) _ (pad2_ne _ '-' (by decide)),
      splitChar_no_sep '-' (pad2 v.d) (pad2_ne _ '-' (by decide))]

theorem parseYMD_dateChars (y m d : Nat) (hy : y < 10000) (hm : m < 100)
    (hd : d < 100) : parseYMD (dateChars ⟨y, m, d⟩) = some (y, m, d) := by
  have hs := splitChar_dateChars ⟨y, m, d⟩
  simp only [parseYMD, hs]
  simp only [pad4, pad2]
  simp only [List.all_cons, List.all_nil, digitChar_isDigit, Bool.and_self, if_true]
  rw [val4_pad y hy, val2_pad m hm, val2_pad d hd]

theorem parseDate_format (v : DateV) (h : validDate v.y v.m v.d = true) :
    parseDate (formatDate v) = some v := by
  obtain ⟨y, m, d⟩ := v
  replace h : validDate y m d = true := h
  obtain ⟨hy1, hy2, hm1, hm2, hd1, hd2⟩ := validDate_bounds y m d h
  rw [show formatDate ⟨y, m, d⟩ = String.mk (dateChars ⟨y, m, d⟩) from rfl]
  simp only [parseDate, String.toList,
    parseYMD_dateChars y m d (by omega) (by omega) (by omega)]
  simp [mkDate?, h]

theorem splitChar_hmsChars (hh mi ss : Nat) :
    splitChar ':' (pad2 hh ++ ':' :: (pad2 mi ++ ':' :: pad2 ss)) =
      [pad2 hh, pad2 mi, pad2 ss] := by
  rw [splitChar_append ':' (pad2 hh) _ (pad2_ne _ ':' (by decide)),
      splitChar_append ':' (pad2 mi) _ (pad2_ne _ ':' (by decide)),
      splitChar_no_sep ':' (pad2 ss) (pad2_ne _ ':' (by decide))]

theorem parseHMS_pads (hh mi ss : Nat) (h1 : hh < 100) (h2 : mi < 100) (h3 : ss < 100) :
    parseHMS (pad2 hh ++ ':' :: (pad2 mi ++ ':' :: pad2 ss)) = some (hh, mi, ss) := by
  simp only [parseHMS, splitChar_hmsChars]
  simp only [pad2]
  simp only [List.all_cons, List.all_nil, digitChar_isDigit, Bool.and_self, if_true]
  rw [val2_pad hh h1, val2_pad mi h2, val2_pad ss h3]

theorem parseOffPair_utcOff : parseOffPair utcOff = some (0, 0) := by decide

theorem noPlus_hmsChars (hh mi ss : Nat) :
    ∀ c ∈ pad2 hh ++ ':' :: (pad2 mi ++ ':' :: pad2 ss), c ≠ '+' := by
  intro c hc
  simp only [List.mem_append, List.mem_cons] at hc
  rcases hc with hc | rfl | hc | rfl | hc
  · exact pad2_ne _ '+' (by decide) c hc
  · decide
  · exact pad2_ne _ '+' (by decide) c hc
  · decide
  · exact pad2_ne _ '+' (by decide) c hc

theorem parseTimeOffset_format (hh mi ss : Nat) (h1 : hh < 100) (h2 : mi < 100)
    (h3 : ss < 100) :
    parseTimeOffset ((pad2 hh ++ ':' :: (pad2 mi ++ ':' :: pad2 ss)) ++ utcSuffix) =
      some (hh, mi, ss, true, 0, 0) := by
  have hsp : splitChar '+' ((pad2 hh ++ ':' :: (pad2 mi ++ ':' :: pad2 ss)) ++ utcSuffix) =
      [pad2 hh ++ ':' :: (pad2 mi ++ ':' :: pad2 ss), utcOff] := by
    show splitChar '+' ((pad2 hh ++ ':' :: (pad2 mi ++ ':' :: pad2 ss)) ++ '+' :: utcOff) = _
    rw [splitChar_append '+' _ _ (noPlus_hmsChars hh mi ss),
        splitChar_no_sep '+' utcOff (by decide)]
  simp only [parseTimeOffset, hsp]
  simp [parseHMS_pads hh mi ss h1 h2 h3, parseOffPair_utcOff]

theorem noT_dateChars (v : DateV) : ∀ c ∈ dateChars v, c ≠ 'T' := by
  intro c hc
  simp only [dateChars, List.mem_append, List.mem_cons] at hc
  rcases hc with hc | rfl | hc | rfl | hc
  · exact pad4_ne _ 'T' (by decide) c hc
  · decide
  · exact pad2_ne _ 'T' (by decide) c hc
  · decide
  · exact pad2_ne _ 'T' (by decide) c hc

theorem applyOffset_zero (y m d hh mi : Nat) (hmi : mi ≤ 59) :
    applyOffset y m d hh mi true 0 0 = (y, m, d, hh, mi) := by
  simp only [applyOffset]
  norm_num
  constructor
  · omega
  · omega

theorem parseDateTime_format (v : DateTimeV) (hd : validDate v.y v.m v.d = true)
    (ht : validTime v.hh v.mi v.ss = true) :
    parseDateTime (formatDateTime v) = some v := by
  obtain ⟨y, m, d, hh, mi, ss⟩ := v
  replace hd : validDate y m d = true := hd
  replace ht : validTime hh mi ss = true := ht
  obtain ⟨hy1, hy2, hm1, hm2, hd1, hd2⟩ := validDate_bounds y m d hd
  obtain ⟨hhh, hmi, hss⟩ := validTime_bounds hh mi ss ht
  have hassoc : dtChars ⟨y, m, d, hh, mi, ss⟩ ++ utcSuffix =
      dateChars ⟨y, m, d⟩ ++ 'T' ::
        ((pad2 hh ++ ':' :: (pad2 mi ++ ':' :: pad2 ss)) ++ utcSuffix) := by
    simp [dtChars, dateChars, List.append_assoc]
  have hsplitT : splitChar 'T' (dtChars ⟨y, m, d, hh, mi, ss⟩ ++ utcSuffix) =
      [dateChars ⟨y, m, d⟩,
       (pad2 hh ++ ':' :: (pad2 mi ++ ':' :: pad2 ss)) ++ utcSuffix] := by
    rw [hassoc, splitChar_append 'T' _ _ (noT_dateChars ⟨y, m, d⟩),
        splitChar_no_sep 'T' _ ?_]
    intro c hc
    rw [List.mem_append] at hc
    rcases hc with hc | hc
    · rcases List.mem_append.mp hc with hc | hc
      · exact pad2_ne _ 'T' (by decide) c hc
      · rcases List.mem_cons.mp hc with rfl | hc
        · decide
        · rcases List.mem_append.mp hc with hc | hc
          · exact pad2_ne _ 'T' (by decide) c hc
          · rcases List.mem_cons.mp hc with rfl | hc
            · decide
            · exact pad2_ne _ 'T' (by decide) c hc
    · revert c
      decide
  simp only [parseDateTime, formatDateTime_toList, hsplitT,
    parseYMD_dateChars y m d (by omega) (by omega) (by omega)]
  simp only [hd, if_true]
  rw [parseTimeOffset_format hh mi ss (by omega) (by omega) (by omega)]
  simp only [ht, Bool.true_and, decide_eq_true_eq]
  norm_num
  rw [applyOffset_zero y m d hh mi hmi]
  simp [hd]

theorem applyOffset_time_bounds (y m d hh mi : Nat) (plus : Bool) (oh om : Nat)
    (h1 : hh ≤ 23) (h2 : mi ≤ 59) (h3 : oh ≤ 23) (h4 : om ≤ 59) :
    (applyOffset y m d hh mi plus oh om).2.2.2.1 ≤ 23 ∧
    (applyOffset y m d hh mi plus oh om).2.2.2.2 ≤ 59 := by
  unfold applyOffset
  rcases hp : prevDay y m d with ⟨a, b, c⟩
  rcases hn : nextDay y m d with ⟨e, f, g⟩
  cases plus <;> simp only [hp, hn] <;> split_ifs <;> constructor <;> simp <;> omega

theorem parseDateTime_valid (s : String) (v : DateTimeV)
    (hv : parseDateTime s = some v) :
    validDate v.y v.m v.d = true ∧ validTime v.hh v.mi v.ss = true := by
  unfold parseDateTime at hv
  split at hv
  · split at hv
    · split at hv
      · split at hv
        · split at hv
          · split at hv
            split at hv
            · rename_i x2 y mo dd heq2 hvd0 x1 hh mi ss plus oh om hto hcond x0 y2 m2 d2 hh2 mi2 heq hvd
              obtain rfl : (⟨y2, m2, d2, hh2, mi2, ss⟩ : DateTimeV) = v :=
                Option.some_injective _ hv
              refine ⟨hvd, ?_⟩
              simp only [Bool.and_eq_true, decide_eq_true_eq] at hcond
              obtain ⟨⟨hvt, hoh⟩, hom⟩ := hcond
              obtain ⟨hhh, hmi, hss⟩ := validTime_bounds hh mi ss hvt
              have hb := applyOffset_time_bounds y mo dd hh mi plus oh om hhh hmi hoh hom
              rw [heq] at hb
              simp only [validTime, Bool.and_eq_true, decide_eq_true_eq]
              exact ⟨⟨by simp_all, by simp_all⟩, by simp_all⟩
            · exact absurd hv (by simp)
          · exact absurd hv (by simp)
        · exact absurd hv (by simp)
      · exact absurd hv (by simp)
    · exact absurd hv (by simp)
  · exact absurd hv (by simp)

/-! ## Scalar round trip under the coercion engine -/

theorem scalar_roundtrip (t : ScalarTy) (sv : ScalarVal)
    (h : wfScalar t (.vScalar sv) = true) :
    scalarDecode t (.vStr (scalarFormat sv)) = .ok (.vScalar sv) := by
  cases t <;> cases sv <;> simp only [wfScalar] at h <;>
    try exact absurd h (by decide)
  case uuid.sUuid u => simp [scalarDecode, scalarFormat, h]
  case email.sEmail e => simp [scalarDecode, scalarFormat, parseEmail, h]
  case phone.sPhone p => simp [scalarDecode, scalarFormat, parsePhone_canonical p h]
  case tz.sTz z => simp [scalarDecode, scalarFormat, h]
  case date.sDate dv => simp [scalarDecode, scalarFormat, parseDate_format dv h]
  case datetime.sDateTime w =>
    simp only [Bool.and_eq_true] at h
    simp [scalarDecode, scalarFormat, parseDateTime_format w h.1 h.2]
  case jwt.sJwt cfg tok cs =>
    cases hj : jwtParse cfg tok with
    | ok cs2 =>
        rw [hj] at h
        simp only [decide_eq_true_eq] at h
        subst h
        simp [scalarDecode, scalarFormat, hj]
    | error e =>
        rw [hj] at h
        exact absurd h (by simp)

/-! ## Ordered-mapping lemmas -/

theorem isNull_eq (v : Val) (h : v.isNull = true) : v = .vNull := by
  cases v <;> simp [Val.isNull] at h ⊢

theorem encodeVal_isNull (v : Val) : (encodeVal v).isNull = v.isNull := by
  cases v <;> simp [encodeVal, Val.isNull]

theorem lookupKey_none (m : List (String × Val)) (k : String) (h : k ∉ keysOf m) :
    lookupKey m k = none := by
  induction m with
  | nil => rfl
  | cons p rest ih =>
    obtain ⟨k0, v0⟩ := p
    simp only [keysOf, List.map_cons, List.mem_cons, not_or] at h
    have hne : k0 ≠ k := fun e => h.1 e.symm
    simp only [lookupKey, if_neg hne]
    exact ih h.2

theorem keysOf_encodeEntries (fs : List (String × Val)) :
    keysOf (encodeEntries fs) = keysOf fs := by
  induction fs with
  | nil => rfl
  | cons p rest ih =>
    obtain ⟨k, v⟩ := p
    simp only [encodeEntries, keysOf, List.map_cons] at ih ⊢
    rw [ih]

theorem lookup_encodeEntries (fs : List (String × Val)) (k : String) (v : Val)
    (hnd : distinct (keysOf fs) = true) (hm : (k, v) ∈ fs) :
    lookupKey (encodeEntries fs) k = some (encodeVal v) := by
  induction fs with
  | nil => simp at hm
  | cons p rest ih =>
    obtain ⟨k0, v0⟩ := p
    simp only [keysOf, List.map_cons, distinct, Bool.and_eq_true, Bool.not_eq_eq_eq_not,
      Bool.not_true, decide_eq_false_iff_not] at hnd
    obtain ⟨hc, hd⟩ := hnd
    rcases List.mem_cons.mp hm with heq | hmem
    · injection heq with h1 h2
      subst h1
      subst h2
      simp [encodeEntries, lookupKey]
    · have hk : k0 ≠ k := by
        rintro rfl
        exact hc (List.mem_map_of_mem Prod.fst hmem)
      simp only [encodeEntries, lookupKey, if_neg hk]
      exact ih hd hmem

theorem findExtra_none (m : List (String × Val)) (names : List String)
    (h : ∀ k ∈ keysOf m, k ∈ names) : findExtra m names = none := by
  induction m with
  | nil => rfl
  | cons p rest ih =>
    obtain ⟨k0, v0⟩ := p
    have h0 : k0 ∈ names := h k0 (by simp [keysOf])
    simp only [findExtra, if_pos h0]
    exact ih (fun k hk => h k (by simp [keysOf] at hk ⊢; right; exact hk))

theorem findExtra_some (m : List (String × Val)) (names : List String) (k : String)
    (hk : k ∈ keysOf m) (hnot : k ∉ names) : ∃ e, findExtra m names = some e := by
  induction m with
  | nil => simp [keysOf] at hk
  | cons p rest ih =>
    obtain ⟨k0, v0⟩ := p
    by_cases h0 : k0 ∈ names
    · have hk' : k ∈ keysOf rest := by
        simp only [keysOf, List.map_cons, List.mem_cons] at hk
        rcases hk with rfl | hk
        · exact absurd h0 hnot
        · exact hk
      simpa [findExtra, if_pos h0] using ih hk'
    · exact ⟨k0, by simp [findExtra, if_neg h0]⟩

theorem lookup_append_some (a b : List (String × Val)) (k : String) (v : Val)
    (h : lookupKey a k = some v) : lookupKey (a ++ b) k = some v := by
  induction a with
  | nil => simp [lookupKey] at h
  | cons p rest ih =>
    obtain ⟨k0, v0⟩ := p
    by_cases h0 : k0 = k
    · simp only [lookupKey, if_pos h0] at h
      simp [lookupKey, if_pos h0, h]
    · simp only [lookupKey, if_neg h0] at h
      simp only [List.cons_append, lookupKey, if_neg h0]
      exact ih h

theorem lookup_append_none (a b : List (String × Val)) (k : String)
    (h : lookupKey a k = none) : lookupKey (a ++ b) k = lookupKey b k := by
  induction a with
  | nil => rfl
  | cons p rest ih =>
    obtain ⟨k0, v0⟩ := p
    by_cases h0 : k0 = k
    · simp [lookupKey, if_pos h0] at h
    · simp only [lookupKey, if_neg h0] at h
      simp only [List.cons_append, lookupKey, if_neg h0]
      exact ih h

/-! ## Field alignment lemmas -/

theorem wfFields_keys : ∀ (flds : Fields) (fs : List (String × Val)),
    wfFields flds fs = true → keysOf fs = fieldNames flds
  | .nil, [], _ => rfl
  | .nil, p :: r, h => by simp [wfFields] at h
  | .cons n sh opt rest, [], h => by simp [wfFields] at h
  | .cons n sh opt rest, (k, v) :: fs, h => by
      simp only [wfFields, Bool.and_eq_true, decide_eq_true_eq] at h
      obtain ⟨⟨rfl, hv⟩, hr⟩ := h
      simp only [keysOf, List.map_cons, fieldNames]
      rw [show List.map Prod.fst fs = keysOf fs from rfl, wfFields_keys rest fs hr]

/-! ## Round trip: decode after full encode -/

theorem scalar_decode_encode (t : ScalarTy) (v : Val) (h : wfScalar t v = true) :
    scalarDecode t (encodeVal v) = .ok v := by
  cases v
  case vStr s =>
    cases t <;> simp [wfScalar] at h <;> simp [encodeVal, scalarDecode]
  case vInt n =>
    cases t <;> simp [wfScalar] at h <;> simp [encodeVal, scalarDecode]
  case vScalar sv =>
    simp only [encodeVal]
    exact scalar_roundtrip t sv h
  case vNull => cases t <;> simp [wfScalar] at h
  case vList xs => cases t <;> simp [wfScalar] at h
  case vDict m => cases t <;> simp [wfScalar] at h
  case vRec n fs => cases t <;> simp [wfScalar] at h

mutual

theorem rt_shape : ∀ (sh : Shape) (v : Val), shapeOK sh = true → wfShape sh v = true →
    decodeShape sh (encodeVal v) = .ok v
  | .scalar t, v, _, hwf => by
      simp only [wfShape] at hwf
      simp only [decodeShape]
      exact scalar_decode_encode t v hwf
  | .nested name flds, v, hok, hwf => by
      cases v <;> simp [wfShape] at hwf
      case vRec n fs =>
        obtain ⟨heq, hf⟩ := hwf
        subst heq
        simp only [shapeOK, Bool.and_eq_true] at hok
        simp only [encodeVal, decodeShape]
        exact rt_schema n flds fs hok.1 hok.2 hf
  | .listOf sh, v, hok, hwf => by
      cases v <;> simp [wfShape] at hwf
      case vList xs =>
        simp only [encodeVal, decodeShape]
        rw [rt_list sh 0 xs (by simpa [shapeOK] using hok) hwf]
        rfl
termination_by sh v _ _ => (sizeOf sh, 0, 0)

theorem rt_list : ∀ (sh : Shape) (i : Nat) (xs : List Val), shapeOK sh = true →
    wfList sh xs = true → decodeList sh i (encodeValList xs) = .ok xs
  | sh, i, [], _, _ => by simp [encodeValList, decodeList]
  | sh, i, x :: xs, hok, hwf => by
      simp only [wfList, Bool.and_eq_true] at hwf
      simp only [encodeValList, decodeList]
      rw [rt_shape sh x hok hwf.1, rt_list sh (i + 1) xs hok hwf.2]
      rfl
termination_by sh _ xs _ _ => (sizeOf sh, 1, sizeOf xs)

theorem rt_fields : ∀ (flds : Fields) (fs m : List (String × Val)),
    fieldsOK flds = true → wfFields flds fs = true →
    (∀ k v, (k, v) ∈ fs → lookupKey m k = some (encodeVal v)) →
    decodeFields flds m = .ok fs
  | .nil, [], m, _, _, _ => by simp [decodeFields]
  | .nil, p :: r, m, _, hwf, _ => absurd hwf (by simp [wfFields])
  | .cons n sh opt rest, [], m, _, hwf, _ => absurd hwf (by simp [wfFields])
  | .cons n sh opt rest, (k, v) :: fs, m, hok, hwf, hlk => by
      simp only [wfFields, Bool.and_eq_true, decide_eq_true_eq] at hwf
      obtain ⟨⟨heq, hv⟩, hr⟩ := hwf
      subst heq
      simp only [fieldsOK, Bool.and_eq_true] at hok
      have hlk0 := hlk k v (by simp)
      have hrest : ∀ k2 v2, (k2, v2) ∈ fs → lookupKey m k2 = some (encodeVal v2) :=
        fun k2 v2 hm => hlk k2 v2 (by simp [hm])
      cases hnull : v.isNull with
      | true =>
          obtain rfl := isNull_eq v hnull
          simp only [Val.isNull, if_true] at hv
          simp only [encodeVal] at hlk0
          simp only [decodeFields, hlk0, Val.isNull, Bool.true_and, hv, if_true]
          rw [rt_fields rest fs m hok.2 hr hrest]
          rfl
      | false =>
          simp only [hnull, if_false] at hv
          have hnull2 : (encodeVal v).isNull = false := (encodeVal_isNull v).trans hnull
          simp only [decodeFields, hlk0, hnull2, Bool.false_and, if_false]
          rw [rt_shape sh v hok.1 hv, rt_fields rest fs m hok.2 hr hrest]
          rfl
termination_by flds fs m _ _ _ => (sizeOf flds, 0, 0)

theorem rt_schema : ∀ (name : String) (flds : Fields) (fs : List (String × Val)),
    distinct (fieldNames flds) = true → fieldsOK flds = true →
    wfFields flds fs = true →
    decodeSchema name flds (encodeEntries fs) = .ok (.vRec name fs)
  | name, flds, fs, hdist, hfok, hwf => by
      have hkeys : keysOf fs = fieldNames flds := wfFields_keys flds fs hwf
      have hdist2 : distinct (keysOf fs) = true := by rw [hkeys]; exact hdist
      have hfind : findExtra (encodeEntries fs) (fieldNames flds) = none := by
        apply findExtra_none
        intro k hk
        rw [keysOf_encodeEntries, hkeys] at hk
        exact hk
      have hdec : decodeFields flds (encodeEntries fs) = .ok fs :=
        rt_fields flds fs (encodeEntries fs) hfok hwf
          (fun k v hm => lookup_encodeEntries fs k v hdist2 hm)
      simp [decodeSchema, hfind, hdec, Except.map]
termination_by nm flds fs _ _ _ => (sizeOf flds, 1, 0)

end

/-! ## Decode inversion lemmas -/

theorem decodeFields_cons_inv (n : String) (sh : Shape) (opt : Bool) (rest : Fields)
    (m fs : List (String × Val)) (h : decodeFields (.cons n sh opt rest) m = .ok fs) :
    ∃ w l, fs = (n, w) :: l ∧ decodeFields rest m = .ok l ∧
      (lookupKey m n = none → opt = true ∧ w = .vNull) ∧
      (∀ v, lookupKey m n = some v → (v.isNull && opt) = false →
        decodeShape sh v = .ok w) := by
  simp only [decodeFields] at h
  cases hl : lookupKey m n with
  | none =>
      rw [hl] at h
      cases opt with
      | false => simp at h
      | true =>
          simp only [if_true] at h
          cases hrec : decodeFields rest m with
          | error e => rw [hrec] at h; simp [Except.map] at h
          | ok l =>
              rw [hrec] at h
              simp only [Except.map, Except.ok.injEq] at h
              refine ⟨.vNull, l, h.symm, rfl, fun _ => ⟨rfl, rfl⟩, ?_⟩
              intro v hv
              exact absurd hv (by simp)
  | some v =>
      rw [hl] at h
      cases hb : (v.isNull && opt) with
      | true =>
          simp only [hb, if_true] at h
          cases hrec : decodeFields rest m with
          | error e => rw [hrec] at h; simp [Except.map] at h
          | ok l =>
              rw [hrec] at h
              simp only [Except.map, Except.ok.injEq] at h
              refine ⟨.vNull, l, h.symm, rfl, ?_, ?_⟩
              · intro hn
                exact absurd hn (by simp)
              · intro v2 hv2 hb2
                obtain rfl := Option.some_injective _ hv2
                rw [hb2] at hb
                cases hb
      | false =>
          simp only [hb, Bool.false_eq_true, if_false] at h
          cases hsh : decodeShape sh v with
          | error e => rw [hsh] at h; simp at h
          | ok w =>
              rw [hsh] at h
              cases hrec : decodeFields rest m with
              | error e => rw [hrec] at h; simp [Except.map] at h
              | ok l =>
                  rw [hrec] at h
                  simp only [Except.map, Except.ok.injEq] at h
                  refine ⟨w, l, h.symm, rfl, ?_, ?_⟩
                  · intro hn
                    exact absurd hn (by simp)
                  · intro v2 hv2 _
                    obtain rfl := Option.some_injective _ hv2
                    exact hsh

theorem decodeFields_keys : ∀ (flds : Fields) (m fs : List (String × Val)),
    decodeFields flds m = .ok fs → keysOf fs = fieldNames flds
  | .nil, m, fs, h => by
      simp only [decodeFields, Except.ok.injEq] at h
      rw [← h]
      rfl
  | .cons n sh opt rest, m, fs, h => by
      obtain ⟨w, l, rfl, hrec, _, _⟩ := decodeFields_cons_inv n sh opt rest m fs h
      simp only [keysOf, List.map_cons, fieldNames]
      rw [show List.map Prod.fst l = keysOf l from rfl, decodeFields_keys rest m l hrec]

theorem decodeFields_absent : ∀ (flds : Fields) (m fs : List (String × Val))
    (fname : String), decodeFields flds m = .ok fs → fname ∈ fieldNames flds →
    lookupKey m fname = none →
    lookupKey fs fname = some .vNull ∧
      ∃ sh2, (fname, sh2, true) ∈ Fields.toList flds
  | .nil, m, fs, fname, _, hmem, _ => by simp [fieldNames] at hmem
  | .cons n sh opt rest, m, fs, fname, h, hmem, habs => by
      obtain ⟨w, l, rfl, hrec, hnone, _⟩ := decodeFields_cons_inv n sh opt rest m fs h
      by_cases heq : n = fname
      · subst heq
        obtain ⟨hopt, rfl⟩ := hnone habs
        subst hopt
        exact ⟨by simp [lookupKey], sh, by simp [Fields.toList]⟩
      · have hmem2 : fname ∈ fieldNames rest := by
          simp only [fieldNames, List.mem_cons] at hmem
          rcases hmem with rfl | hmem
          · exact absurd rfl heq
          · exact hmem
        obtain ⟨h1, sh2, h2⟩ := decodeFields_absent rest m l fname hrec hmem2 habs
        exact ⟨by simp [lookupKey, heq, h1], sh2, by simp [Fields.toList, h2]⟩

theorem toList_name_mem : ∀ (flds : Fields) (fname : String) (sh : Shape) (opt : Bool),
    (fname, sh, opt) ∈ Fields.toList flds → fname ∈ fieldNames flds
  | .nil, fname, sh, opt, h => by simp [Fields.toList] at h
  | .cons n sh0 opt0 rest, fname, sh, opt, h => by
      simp only [Fields.toList, List.mem_cons] at h
      rcases h with h | h
      · injection h with h1 h2
        subst h1
        simp [fieldNames]
      · simp only [fieldNames, List.mem_cons]
        exact Or.inr (toList_name_mem rest fname sh opt h)

theorem decodeFields_field_ok : ∀ (flds : Fields) (m fs : List (String × Val))
    (fname : String) (sh : Shape) (opt : Bool),
    decodeFields flds m = .ok fs → distinct (fieldNames flds) = true →
    (fname, sh, opt) ∈ Fields.toList flds →
    ∀ v, lookupKey m fname = some v → (v.isNull && opt) = false →
    ∃ w, decodeShape sh v = .ok w
  | .nil, m, fs, fname, sh, opt, _, _, hmem, _, _, _ => by simp [Fields.toList] at hmem
  | .cons n sh0 opt0 rest, m, fs, fname, sh, opt, h, hdist, hmem, v, hv, hb => by
      obtain ⟨w, l, rfl, hrec, _, hsome⟩ := decodeFields_cons_inv n sh0 opt0 rest m fs h
      simp only [fieldNames, distinct, Bool.and_eq_true, Bool.not_eq_eq_eq_not,
        Bool.not_true, decide_eq_false_iff_not] at hdist
      simp only [Fields.toList, List.mem_cons] at hmem
      rcases hmem with heq | hmem
      · injection heq with h1 h2
        subst h1
        injection h2 with h3 h4
        subst h3
        subst h4
        exact ⟨w, hsome v hv hb⟩
      · exact decodeFields_field_ok rest m l fname sh opt hrec hdist.2 hmem v hv hb

theorem decodeSchema_inv (name : String) (flds : Fields) (m : List (String × Val))
    (r : Val) (h : decodeSchema name flds m = .ok r) :
    ∃ fs, r = .vRec name fs ∧ decodeFields flds m = .ok fs ∧
      findExtra m (fieldNames flds) = none := by
  simp only [decodeSchema] at h
  cases hf : findExtra m (fieldNames flds) with
  | some k => rw [hf] at h; simp at h
  | none =>
      rw [hf] at h
      cases hd : decodeFields flds m with
      | error e => rw [hd] at h; simp [Except.map] at h
      | ok fs =>
          rw [hd] at h
          simp only [Except.map, Except.ok.injEq] at h
          exact ⟨fs, h.symm, rfl, rfl⟩

theorem decodeList_error (sh : Shape) (xs : List Val) (x : Val) (e : DecodeErr)
    (hx : x ∈ xs) (he : decodeShape sh x = .error e) :
    ∀ i, ∃ j e2, decodeList sh i xs = .error (.atIndex j e2) := by
  induction xs with
  | nil => simp at hx
  | cons y ys ih =>
    intro i
    cases hy : decodeShape sh y with
    | error e0 => exact ⟨i, e0, by simp [decodeList, hy]⟩
    | ok w =>
        rcases List.mem_cons.mp hx with rfl | hx2
        · rw [he] at hy
          cases hy
        · obtain ⟨j, e2, hj⟩ := ih hx2 (i + 1)
          exact ⟨j, e2, by simp [decodeList, hy, hj, Except.map]⟩

/-! ## Full and minimal encode agreement -/

theorem keysOf_filter_sub (l : List (String × Val)) (p : String × Val → Bool)
    (k : String) (h : k ∈ keysOf (l.filter p)) : k ∈ keysOf l := by
  simp only [keysOf, List.mem_map] at h ⊢
  obtain ⟨x, hm, rfl⟩ := h
  exact ⟨x, (List.mem_filter.mp hm).1, rfl⟩

theorem defaultedNulls_encode (fs : List (String × Val)) :
    defaultedNulls fs =
      ((encodeEntries fs).filter (fun p => p.2.isNull)).map
        (fun p => (p.1, Val.vNull)) := by
  induction fs with
  | nil => rfl
  | cons p rest ih =>
    obtain ⟨k, v⟩ := p
    simp only [defaultedNulls, encodeEntries, List.filter_cons] at ih ⊢
    rw [encodeVal_isNull]
    cases hn : v.isNull <;> simp [hn, ih]

theorem lookup_minimal_split :
    ∀ (l : List (String × Val)) (k : String), distinct (keysOf l) = true →
    lookupKey l k =
      lookupKey (l.filter (fun p => !p.2.isNull) ++
        (l.filter (fun p => p.2.isNull)).map (fun p => (p.1, Val.vNull))) k := by
  intro l
  induction l with
  | nil => intro k _; rfl
  | cons p rest ih =>
    intro k hnd
    obtain ⟨k0, v0⟩ := p
    simp only [keysOf, List.map_cons, distinct, Bool.and_eq_true,
      Bool.not_eq_eq_eq_not, Bool.not_true, decide_eq_false_iff_not] at hnd
    obtain ⟨hc, hd⟩ := hnd
    cases hn : v0.isNull with
    | true =>
        obtain rfl := isNull_eq v0 hn
        have hlist : ((k0, Val.vNull) :: rest).filter (fun p => !p.2.isNull) =
            rest.filter (fun p => !p.2.isNull) := by
          simp [List.filter_cons, Val.isNull]
        have hlist2 : (((k0, Val.vNull) :: rest).filter
              (fun p => p.2.isNull)).map (fun p => (p.1, Val.vNull)) =
            (k0, Val.vNull) ::
              (rest.filter (fun p => p.2.isNull)).map (fun p => (p.1, Val.vNull)) := by
          simp [List.filter_cons, Val.isNull]
        rw [hlist, hlist2]
        by_cases hk : k0 = k
        · subst hk
          have h1 : lookupKey (rest.filter (fun p => !p.2.isNull)) k0 = none := by
            apply lookupKey_none
            intro hmem
            exact hc (keysOf_filter_sub rest _ k0 hmem)
          rw [lookup_append_none _ _ _ h1]
          simp [lookupKey]
        · rw [show lookupKey ((k0, Val.vNull) :: rest) k = lookupKey rest k by
            simp [lookupKey, hk], ih k hd]
          cases hlf : lookupKey (rest.filter (fun p => !p.2.isNull)) k with
          | some w => rw [lookup_append_some _ _ _ _ hlf, lookup_append_some _ _ _ _ hlf]
          | none =>
              rw [lookup_append_none _ _ _ hlf, lookup_append_none _ _ _ hlf]
              simp [lookupKey, hk]
    | false =>
        have hlist : ((k0, v0) :: rest).filter (fun p => !p.2.isNull) =
            (k0, v0) :: rest.filter (fun p => !p.2.isNull) := by
          simp [List.filter_cons, hn]
        have hlist2 : (((k0, v0) :: rest).filter
              (fun p => p.2.isNull)).map (fun p => (p.1, Val.vNull)) =
            (rest.filter (fun p => p.2.isNull)).map (fun p => (p.1, Val.vNull)) := by
          simp [List.filter_cons, hn]
        rw [hlist, hlist2, List.cons_append]
        by_cases hk : k0 = k
        · subst hk
          simp [lookupKey]
        · rw [show lookupKey ((k0, v0) :: rest) k = lookupKey rest k by
            simp [lookupKey, hk]]
          rw [show lookupKey ((k0, v0) :: (rest.filter (fun p => !p.2.isNull) ++
              (rest.filter (fun p => p.2.isNull)).map (fun p => (p.1, Val.vNull)))) k =
              lookupKey (rest.filter (fun p => !p.2.isNull) ++
              (rest.filter (fun p => p.2.isNull)).map (fun p => (p.1, Val.vNull))) k by
            simp [lookupKey, hk]]
          exact ih k hd

/-! ## Record construction and declaration lemmas -/

theorem initFields_keys : ∀ (flds : Fields) (kwargs : List (String × Val)),
    keysOf (initFields flds kwargs) = fieldNames flds
  | .nil, _ => rfl
  | .cons n sh opt rest, kwargs => by
      simp only [initFields, keysOf, List.map_cons, fieldNames]
      rw [show List.map Prod.fst (initFields rest kwargs) = keysOf (initFields rest kwargs)
        from rfl, initFields_keys rest kwargs]

theorem classify_unsupported (fname : String) (a : Ann) (h : unsupportedAnn a = true) :
    classify fname a = .error (.noDecodeStrategy fname) := by
  cases a <;> simp [unsupportedAnn] at h <;> simp [classify]

theorem declareSchema_error :
    ∀ (decl : List (String × Ann)) (fname : String) (a : Ann),
    (fname, a) ∈ decl → unsupportedAnn a = true →
    ∃ f, declareSchema decl = .error (.noDecodeStrategy f) := by
  intro decl
  induction decl with
  | nil => intro fname a h _; simp at h
  | cons p rest ih =>
    intro fname a hmem hbad
    obtain ⟨n0, a0⟩ := p
    rcases List.mem_cons.mp hmem with heq | hmem2
    · injection heq with h1 h2
      subst h1
      subst h2
      exact ⟨fname, by simp [declareSchema, classify_unsupported fname a hbad]⟩
    · cases hc : classify n0 a0 with
      | error e =>
          cases e with
          | noDecodeStrategy f => exact ⟨f, by simp [declareSchema, hc]⟩
      | ok sp =>
          obtain ⟨f, hf⟩ := ih fname a hmem2 hbad
          obtain ⟨sh, opt⟩ := sp
          exact ⟨f, by simp [declareSchema, hc, hf]⟩

theorem hmacSign_no_dot (key : String) (msg : List Char) :
    ∀ c ∈ hmacSign key msg, c ≠ '.' := by
  intro c hc
  simp only [hmacSign, List.mem_cons, List.mem_map] at hc
  rcases hc with rfl | rfl | rfl | ⟨a, _, rfl⟩
  · decide
  · decide
  · decide
  · simp only [escapeDot]
    split_ifs with hd
    · decide
    · exact hd

/-! ## The claims -/

/-- C2: for every record of a well-declared schema, decoding the full
encoding of the record against its own schema yields the record back:
decode of to_dict is the identity on well-formed records. -/
theorem claim_C2 (name : String) (flds : Fields) (fs : List (String × Val))
    (hok : schemaOK flds = true) (hwf : wfFields flds fs = true) :
    fromDict name flds (toDictFields fs) = .ok (.vRec name fs) := by
  simp only [schemaOK, Bool.and_eq_true] at hok
  exact rt_schema name flds fs hok.1 hok.2 hwf

/-- Witness for C2 at a record exercising every scalar variant, an
optional defaulted field, and a list of nested schemas. -/
theorem claim_C2_witness :
    schemaOK sampleFlds = true ∧ wfFields sampleFlds sampleRec = true ∧
    fromDict "DummySchema" sampleFlds (toDictFields sampleRec) =
      .ok (.vRec "DummySchema" sampleRec) :=
  ⟨by decide, by decide, claim_C2 "DummySchema" sampleFlds sampleRec (by decide) (by decide)⟩

/-- C4: datetime parsing normalizes every input offset to UTC: the two
spellings of the same instant parse to the same canonical value, and the
canonical format of any successfully parsed value is the ISO 8601 form
ending in the normalized UTC offset and parses back to the same value. -/
theorem claim_C4 (s : String) (v : DateTimeV) (hv : parseDateTime s = some v) :
    parseDateTime "1990-01-01T00:00:00-02:00" = some ⟨1990, 1, 1, 2, 0, 0⟩ ∧
    parseDateTime "1990-01-01T02:00:00+00:00" = some ⟨1990, 1, 1, 2, 0, 0⟩ ∧
    (∃ pre, (formatDateTime v).toList = pre ++ ('+' :: ['0', '0', ':', '0', '0'])) ∧
    parseDateTime (formatDateTime v) = some v := by
  obtain ⟨hd, ht⟩ := parseDateTime_valid s v hv
  exact ⟨by decide, by decide, ⟨dtChars v, rfl⟩, parseDateTime_format v hd ht⟩

/-- Witness for C4 at the UTC spelling of the instant. -/
theorem claim_C4_witness :
    parseDateTime "1990-01-01T02:00:00+00:00" = some ⟨1990, 1, 1, 2, 0, 0⟩ ∧
    (parseDateTime "1990-01-01T00:00:00-02:00" = some ⟨1990, 1, 1, 2, 0, 0⟩ ∧
     parseDateTime "1990-01-01T02:00:00+00:00" = some ⟨1990, 1, 1, 2, 0, 0⟩ ∧
     (∃ pre, (formatDateTime ⟨1990, 1, 1, 2, 0, 0⟩).toList =
       pre ++ ('+' :: ['0', '0', ':', '0', '0'])) ∧
     parseDateTime (formatDateTime ⟨1990, 1, 1, 2, 0, 0⟩) =
       some ⟨1990, 1, 1, 2, 0, 0⟩) :=
  ⟨by decide, claim_C4 "1990-01-01T02:00:00+00:00" ⟨1990, 1, 1, 2, 0, 0⟩ (by decide)⟩

/-- C6: declaring a schema with a field whose annotation is a
fixed-arity tuple or a union of two or more non-null concrete types
fails at class-declaration time with a declaration error: the field
classification itself fails, so the registry is never built and no
decode can ever run against such a schema. -/
theorem claim_C6 (decl : List (String × Ann)) (fname : String) (a : Ann)
    (hmem : (fname, a) ∈ decl) (hbad : unsupportedAnn a = true) :
    classify fname a = .error (.noDecodeStrategy fname) ∧
    ∃ f, declareSchema decl = .error (.noDecodeStrategy f) :=
  ⟨classify_unsupported fname a hbad, declareSchema_error decl fname a hmem hbad⟩

/-- Witness for C6 at a tuple-annotated field and at a union-annotated
field, mirroring the two bad-type-hint tests. -/
theorem claim_C6_witness :
    (classify "field" (Ann.aTuple [Ann.aScalar .str]) =
        .error (.noDecodeStrategy "field") ∧
      ∃ f, declareSchema [("field", Ann.aTuple [Ann.aScalar .str])] =
        .error (.noDecodeStrategy f)) ∧
    (classify "field" (Ann.aUnion (.aScalar .str) (.aScalar .int)) =
        .error (.noDecodeStrategy "field") ∧
      ∃ f, declareSchema [("field", Ann.aUnion (.aScalar .str) (.aScalar .int))] =
        .error (.noDecodeStrategy f)) :=
  ⟨claim_C6 [("field", Ann.aTuple [Ann.aScalar .str])] "field"
      (Ann.aTuple [Ann.aScalar .str]) (List.Mem.head _) rfl,
   claim_C6 [("field", Ann.aUnion (.aScalar .str) (.aScalar .int))] "field"
      (Ann.aUnion (.aScalar .str) (.aScalar .int)) (List.Mem.head _) rfl⟩

/-- C8: email parsing enforces the variant grammar: the canonical valid
address parses and formats back to itself unchanged, while a double
at-sign, an empty local part, the empty string, and a one-letter final
domain label all fail to parse. -/
theorem claim_C8 :
    parseEmail "example@example.com" = some "example@example.com" ∧
    scalarFormat (.sEmail "example@example.com") = "example@example.com" ∧
    parseEmail "ex@ample@example.com" = none ∧
    parseEmail "@example.com" = none ∧
    parseEmail "" = none ∧
    parseEmail "example@exampl.e.com.e" = none := by
  refine ⟨by decide, rfl, by decide, by decide, by decide, by decide⟩

/-- C9: in the enforcement dispatcher the allow-none short-circuit takes
precedence over the schema-capable check: with allow-none set, none is
returned even for a non-schema-capable expected type, while with
allow-none unset the same call fails with a type error. -/
theorem claim_C9 (t : PyType) (hcap : isSchemaCapable t = false) :
    enforce t .vNull true = .ok none ∧ enforce t .vNull false = .error .typeError := by
  constructor
  · simp [enforce, Val.isNull]
  · cases t <;> simp [isSchemaCapable] at hcap <;> simp [enforce, Val.isNull]

/-- Witness for C9 at the none expected type, mirroring the tests that
call enforce with none as the schema argument. -/
theorem claim_C9_witness :
    isSchemaCapable .noneTy = false ∧ enforce .noneTy .vNull true = .ok none ∧
    enforce .noneTy .vNull false = .error .typeError :=
  ⟨rfl, (claim_C9 .noneTy rfl).1, (claim_C9 .noneTy rfl).2⟩

/-- C1: top-level decode rejects any input key that is not a declared
field name with an unexpected-field error, the same check is applied to
each element mapping when decoding a list of nested schemas, and a
schema containing such a list field fails the whole decode when any
single element mapping carries an undeclared key. -/
theorem claim_C1 (name : String) (flds : Fields) (m : List (String × Val)) (k : String)
    (hk : k ∈ keysOf m) (hnot : k ∉ fieldNames flds)
    (tname : String) (tflds : Fields) (xs : List Val) (mx : List (String × Val))
    (k2 : String) (hmem : Val.vDict mx ∈ xs) (hk2 : k2 ∈ keysOf mx)
    (hnot2 : k2 ∉ fieldNames tflds)
    (sname : String) (sflds : Fields) (fname : String) (opt : Bool)
    (m2 : List (String × Val)) (hdist : distinct (fieldNames sflds) = true)
    (hfld : (fname, Shape.listOf (.nested tname tflds), opt) ∈ Fields.toList sflds)
    (hlk : lookupKey m2 fname = some (.vList xs)) :
    (∃ e, fromDict name flds m = .error (.unexpectedField e)) ∧
    (∃ j e2, decodeShape (.listOf (.nested tname tflds)) (.vList xs) =
      .error (.atIndex j e2)) ∧
    (∃ e3, fromDict sname sflds m2 = .error e3) := by
  obtain ⟨e, he⟩ := findExtra_some m (fieldNames flds) k hk hnot
  have conj1 : ∃ e, fromDict name flds m = .error (.unexpectedField e) :=
    ⟨e, by simp [fromDict, decodeSchema, he]⟩
  obtain ⟨e4, he4⟩ := findExtra_some mx (fieldNames tflds) k2 hk2 hnot2
  have helem : decodeShape (.nested tname tflds) (.vDict mx) =
      .error (.unexpectedField e4) := by
    simp [decodeShape, decodeSchema, he4]
  obtain ⟨j, e2, hj⟩ := decodeList_error (.nested tname tflds) xs (.vDict mx)
    (.unexpectedField e4) hmem helem 0
  have conj2 : ∃ j e2, decodeShape (.listOf (.nested tname tflds)) (.vList xs) =
      .error (.atIndex j e2) := ⟨j, e2, by simp [decodeShape, hj, Except.map]⟩
  refine ⟨conj1, conj2, ?_⟩
  cases hres : fromDict sname sflds m2 with
  | error e3 => exact ⟨e3, rfl⟩
  | ok r =>
      exfalso
      obtain ⟨fs, _, hdf, _⟩ := decodeSchema_inv sname sflds m2 r hres
      obtain ⟨w, hw⟩ := decodeFields_field_ok sflds m2 fs fname
        (Shape.listOf (.nested tname tflds)) opt hdf hdist hfld (.vList xs) hlk
        (by simp [Val.isNull])
      obtain ⟨j2, e5, hj2⟩ := conj2
      rw [hw] at hj2
      cases hj2

/-- Witness for C1 mirroring the extra-argument and non-homogeneous
list decode tests. -/
theorem claim_C1_witness :
    ("extra" ∈ keysOf [("field", Val.vStr "value"), ("extra", Val.vStr "foo")]) ∧
    ((∃ e, fromDict "DummySchemaOne" nestedFlds
        [("field", Val.vStr "value"), ("extra", Val.vStr "foo")] =
        .error (.unexpectedField e)) ∧
     (∃ j e2, decodeShape (.listOf (.nested "DummySchemaOne" nestedFlds))
        (.vList badElems) = .error (.atIndex j e2)) ∧
     (∃ e3, fromDict "DummySchemaTwo" listFlds [("field", .vList badElems)] =
        .error e3)) :=
  ⟨by decide,
   claim_C1 "DummySchemaOne" nestedFlds
     [("field", Val.vStr "value"), ("extra", Val.vStr "foo")] "extra"
     (by decide) (by decide)
     "DummySchemaOne" nestedFlds badElems
     [("field", Val.vStr "value"), ("extra", Val.vStr "foo")] "extra"
     (List.Mem.tail _ (List.Mem.head _)) (by decide) (by decide)
     "DummySchemaTwo" listFlds "field" false [("field", .vList badElems)]
     (by decide) (List.Mem.head _) rfl⟩

/-- C3: token verification fails closed: under any configuration the
empty string fails, any token with a segment count other than three
fails, and a token whose signature segment differs from the configured
keyed signature fails; while every compact token whose header declares a
configured algorithm and whose signature segment is the keyed signature
of its first two segments parses to exactly the claim set embedded in
its payload segment. -/
theorem claim_C3 (cfg : JWTConfig) (h p badSig : List Char) (claims : Claims)
    (hh : ∀ c ∈ h, c ≠ '.') (hp : ∀ c ∈ p, c ≠ '.') (hbad : ∀ c ∈ badSig, c ≠ '.')
    (hne : h.isEmpty = false)
    (halg : String.mk h ∈ cfg.algorithms)
    (hcl : decodePayload p = some claims)
    (hwrong : badSig ≠ hmacSign cfg.key (h ++ '.' :: p)) :
    jwtParse cfg "" = .error (.formatError "jwt") ∧
    (∀ t : String, (splitChar '.' t.toList).length ≠ 3 →
      jwtParse cfg t = .error (.formatError "jwt")) ∧
    jwtParse cfg (String.mk (h ++ '.' :: (p ++ '.' :: badSig))) =
      .error (.formatError "jwt") ∧
    jwtParse cfg (String.mk (h ++ '.' :: (p ++ '.' :: hmacSign cfg.key (h ++ '.' :: p)))) =
      .ok claims := by
  have hsplit : ∀ s2 : List Char, (∀ c ∈ s2, c ≠ '.') →
      splitChar '.' (h ++ '.' :: (p ++ '.' :: s2)) = [h, p, s2] := by
    intro s2 hs2
    rw [splitChar_append '.' h _ hh, splitChar_append '.' p _ hp,
      splitChar_no_sep '.' s2 hs2]
  refine ⟨rfl, ?_, ?_, ?_⟩
  · intro t hlen
    have hlen2 : (splitChar '.' t.data).length ≠ 3 := hlen
    cases hsp : splitChar '.' t.data with
    | nil => simp [jwtParse, hsp]
    | cons a l1 =>
      cases l1 with
      | nil => simp [jwtParse, hsp]
      | cons b l2 =>
        cases l2 with
        | nil => simp [jwtParse, hsp]
        | cons c l3 =>
          cases l3 with
          | nil => rw [hsp] at hlen2; simp at hlen2
          | cons d l4 => simp [jwtParse, hsp]
  · simp only [jwtParse, String.toList, hsplit badSig hbad]
    simp only [headerAlg, hne, Bool.false_eq_true, if_false, if_pos halg]
    rw [if_neg hwrong]
  · simp only [jwtParse, String.toList, hsplit _ (hmacSign_no_dot cfg.key _)]
    simp only [headerAlg, hne, Bool.false_eq_true, if_false, if_pos halg]
    simp [hcl]

/-- Witness for C3 at the test-suite token configuration with an iat
claim set. -/
theorem claim_C3_witness :
    decodePayload "iat:1516239022".toList = some [("iat", 1516239022)] ∧
    (jwtParse sampleTokenCfg "" = .error (.formatError "jwt") ∧
     (∀ t : String, (splitChar '.' t.toList).length ≠ 3 →
       jwtParse sampleTokenCfg t = .error (.formatError "jwt")) ∧
     jwtParse sampleTokenCfg (String.mk ("HS256".toList ++ '.' ::
       ("iat:1516239022".toList ++ '.' :: "bad".toList))) =
       .error (.formatError "jwt") ∧
     jwtParse sampleTokenCfg (String.mk ("HS256".toList ++ '.' ::
       ("iat:1516239022".toList ++ '.' ::
         hmacSign sampleTokenCfg.key ("HS256".toList ++ '.' :: "iat:1516239022".toList)))) =
       .ok [("iat", 1516239022)]) :=
  ⟨by decide,
   claim_C3 sampleTokenCfg "HS256".toList "iat:1516239022".toList "bad".toList
     [("iat", 1516239022)] (by decide) (by decide) (by decide) (by decide) (by decide)
     (by decide) (by decide)⟩

/-- Concrete evaluation of the two-field optional schema with the optional
field absent: decoding fills the optional field with the explicit null. -/
theorem decodeFields_optExample :
    decodeFields optFlds [("field", Val.vStr "field")] =
      .ok [("field", Val.vStr "field"), ("optional", Val.vNull)] := by
  simp [decodeFields, decodeShape, scalarDecode, findExtra, fieldNames,
    lookupKey, Except.map, Val.isNull, optFlds]

/-- C5: a declared-optional field absent from the input mapping decodes
to its declared default none, such a defaulted field is indeed declared
optional, and the two encode modes agree as maps via full equals minimal
extended with an explicit null entry for every defaulted field. -/
theorem claim_C5 (name : String) (flds : Fields) (m fs : List (String × Val))
    (fname : String) (hdist : distinct (fieldNames flds) = true)
    (hdec : fromDict name flds m = .ok (.vRec name fs))
    (hmem : fname ∈ fieldNames flds) (habs : lookupKey m fname = none) :
    lookupKey fs fname = some .vNull ∧
    (∃ sh2, (fname, sh2, true) ∈ Fields.toList flds) ∧
    (∀ k, lookupKey (toDictFields fs) k =
      lookupKey (toMinimalFields fs ++ defaultedNulls fs) k) := by
  obtain ⟨fs2, heq, hdf, _⟩ := decodeSchema_inv name flds m _ hdec
  injection heq with h1 h2
  subst h2
  obtain ⟨hnull, hopt⟩ := decodeFields_absent flds m fs fname hdf hmem habs
  refine ⟨hnull, hopt, ?_⟩
  intro k
  have hkeys := decodeFields_keys flds m fs hdf
  have hdist2 : distinct (keysOf (encodeEntries fs)) = true := by
    rw [keysOf_encodeEntries, hkeys]
    exact hdist
  rw [show toDictFields fs = encodeEntries fs from rfl,
    show toMinimalFields fs = (encodeEntries fs).filter (fun q => !q.2.isNull) from rfl,
    defaultedNulls_encode]
  exact lookup_minimal_split (encodeEntries fs) k hdist2

/-- Witness for C5 at the optional-field schema with the optional field
absent from the input. -/
theorem claim_C5_witness :
    lookupKey [("field", Val.vStr "field")] "optional" = none ∧
    (lookupKey [("field", Val.vStr "field"), ("optional", Val.vNull)] "optional" =
        some .vNull ∧
     (∃ sh2, ("optional", sh2, true) ∈ Fields.toList optFlds) ∧
     (∀ k, lookupKey (toDictFields [("field", Val.vStr "field"), ("optional", Val.vNull)]) k =
       lookupKey (toMinimalFields [("field", Val.vStr "field"), ("optional", Val.vNull)] ++
         defaultedNulls [("field", Val.vStr "field"), ("optional", Val.vNull)]) k)) :=
  ⟨rfl,
   claim_C5 "SchemaTest" optFlds [("field", Val.vStr "field")]
     [("field", Val.vStr "field"), ("optional", Val.vNull)] "optional"
     (by decide)
     (by
       have h : (decodeFields optFlds [("field", Val.vStr "field")]).map
           (Val.vRec "SchemaTest" ·) =
           Except.ok (Val.vRec "SchemaTest"
             [("field", Val.vStr "field"), ("optional", Val.vNull)]) := by
         rw [decodeFields_optExample]; rfl
       calc fromDict "SchemaTest" optFlds [("field", Val.vStr "field")]
           = (decodeFields optFlds [("field", Val.vStr "field")]).map
             (Val.vRec "SchemaTest" ·) := rfl
         _ = _ := h)
     (by decide) rfl⟩

/-- C7: the enforcement dispatcher returns a record of the expected
schema unchanged, decodes a valid mapping, returns none for none when
allow-none is set, fails with the missing-value error for none
otherwise, and fails with a type error, distinct by construction from
every decode failure, whenever the expected type is not schema-capable. -/
theorem claim_C7 (name : String) (flds : Fields) (fs m : List (String × Val))
    (r : Val) (t : PyType) (hdec : decodeSchema name flds m = .ok r)
    (hcap : isSchemaCapable t = false) :
    enforce (.schemaTy name flds) (.vRec name fs) false = .ok (some (.vRec name fs)) ∧
    enforce (.schemaTy name flds) (.vDict m) false = .ok (some r) ∧
    enforce (.schemaTy name flds) .vNull true = .ok none ∧
    enforce (.schemaTy name flds) .vNull false = .error .missingValue ∧
    (∀ v : Val, enforce t v false = .error .typeError) ∧
    (∀ e, EnforceErr.typeError ≠ EnforceErr.decodeFailed e) := by
  refine ⟨?_, ?_, ?_, ?_, ?_, ?_⟩
  · simp [enforce, Val.isNull]
  · simp [enforce, Val.isNull, hdec]
  · simp [enforce, Val.isNull]
  · simp [enforce, Val.isNull]
  · intro v
    cases t <;> simp [isSchemaCapable] at hcap <;> simp [enforce, Val.isNull]
  · intro e heq
    cases heq

/-- Witness for C7 at the single-field test schema and a non-schema
expected type. -/
theorem claim_C7_witness :
    decodeSchema "SchemaTest" nestedFlds [("field", Val.vStr "1")] =
      .ok (.vRec "SchemaTest" [("field", Val.vStr "1")]) ∧
    (enforce (.schemaTy "SchemaTest" nestedFlds)
        (.vRec "SchemaTest" [("field", Val.vStr "1")]) false =
        .ok (some (.vRec "SchemaTest" [("field", Val.vStr "1")])) ∧
     enforce (.schemaTy "SchemaTest" nestedFlds) (.vDict [("field", Val.vStr "1")]) false =
        .ok (some (.vRec "SchemaTest" [("field", Val.vStr "1")])) ∧
     enforce (.schemaTy "SchemaTest" nestedFlds) .vNull true = .ok none ∧
     enforce (.schemaTy "SchemaTest" nestedFlds) .vNull false = .error .missingValue ∧
     (∀ v : Val, enforce (.otherTy "TypedDict") v false = .error .typeError) ∧
     (∀ e, EnforceErr.typeError ≠ EnforceErr.decodeFailed e)) :=
  ⟨by simp [decodeSchema, decodeFields, decodeShape, scalarDecode, findExtra,
     fieldNames, lookupKey, nestedFlds, Except.map, Val.isNull],
   claim_C7 "SchemaTest" nestedFlds [("field", Val.vStr "1")]
     [("field", Val.vStr "1")] (.vRec "SchemaTest" [("field", Val.vStr "1")])
     (.otherTy "TypedDict")
     (by simp [decodeSchema, decodeFields, decodeShape, scalarDecode, findExtra,
       fieldNames, lookupKey, nestedFlds, Except.map, Val.isNull]) rfl⟩

/-- C10: direct construction of a record rejects undeclared keyword
arguments with a value-level error, and every record produced by either
direct construction or decoding carries exactly the declared field
names of its schema, so no record ever contains a key outside its
field-spec sequence. -/
theorem claim_C10 (name : String) (flds : Fields) (kwargs : List (String × Val))
    (k : String) (hk : k ∈ keysOf kwargs) (hnot : k ∉ fieldNames flds) :
    (∃ e, mkRecord name flds kwargs = .error (.unexpectedField e)) ∧
    (∀ name2 flds2 kw2 n2 fs2, mkRecord name2 flds2 kw2 = .ok (.vRec n2 fs2) →
      keysOf fs2 = fieldNames flds2) ∧
    (∀ name2 flds2 m2 n2 fs2, decodeSchema name2 flds2 m2 = .ok (.vRec n2 fs2) →
      keysOf fs2 = fieldNames flds2) := by
  refine ⟨?_, ?_, ?_⟩
  · obtain ⟨e, he⟩ := findExtra_some kwargs (fieldNames flds) k hk hnot
    exact ⟨e, by simp [mkRecord, he]⟩
  · intro name2 flds2 kw2 n2 fs2 hmk
    simp only [mkRecord] at hmk
    cases hf : findExtra kw2 (fieldNames flds2) with
    | some e => rw [hf] at hmk; cases hmk
    | none =>
        rw [hf] at hmk
        simp only [Except.ok.injEq] at hmk
        injection hmk with h1 h2
        rw [← h2]
        exact initFields_keys flds2 kw2
  · intro name2 flds2 m2 n2 fs2 hdec
    obtain ⟨fs3, heq, hdf, _⟩ := decodeSchema_inv name2 flds2 m2 _ hdec
    injection heq with h1 h2
    rw [h2]
    exact decodeFields_keys flds2 m2 fs3 hdf

/-- Witness for C10 at the extra-keyword construction test. -/
theorem claim_C10_witness :
    ("extra" ∈ keysOf [("field", Val.vStr "s"), ("extra", Val.vStr "foo")]) ∧
    ((∃ e, mkRecord "SchemaTest" nestedFlds
        [("field", Val.vStr "s"), ("extra", Val.vStr "foo")] =
        .error (.unexpectedField e)) ∧
     (∀ name2 flds2 kw2 n2 fs2, mkRecord name2 flds2 kw2 = .ok (.vRec n2 fs2) →
       keysOf fs2 = fieldNames flds2) ∧
     (∀ name2 flds2 m2 n2 fs2, decodeSchema name2 flds2 m2 = .ok (.vRec n2 fs2) →
       keysOf fs2 = fieldNames flds2)) :=
  ⟨by decide,
   claim_C10 "SchemaTest" nestedFlds [("field", Val.vStr "s"), ("extra", Val.vStr "foo")]
     "extra" (by decide) (by decide)⟩

end Schemander